import Mathlib

/-!
# kmval: rule resolution and plan execution

A shallow embedding of `validations/validations.go`,
`validations/test_plan.go` and the action of `cli/app.go`.

Conventions of the embedding.

* A Go `map[string]V` is an association list `GoMap V`.  Reading a missing key
  gives the zero value of `V` (`GoMap.get`), as in Go.
* The maps of the manifest are only ever ranged over by the resolver.  They
  are given as the list of their entries in the order in which this particular
  `range` enumerates them; Go leaves that order unspecified, so two
  resolutions of one manifest may receive two different permutations.
* The external collaborators (`kustomize build`, `yq`, the YAML decoder, the
  colouring of messages, the order of a `range` over a map built by the
  program) are the fields of a `Host`.
* A Go `error` is a `String`; a panic or a loop that exhausts its fuel is an
  `Abort`.
-/

namespace Kmval

/-! ## Go maps -/

/-- A Go map with string keys, as the list of its entries. -/
abbrev GoMap (α : Type) := List (String × α)

/-- The comma-ok read `v, ok := m[k]`. -/
def GoMap.get? {α : Type} : GoMap α → String → Option α
  | [], _ => none
  | (k', v) :: r, k => if k' = k then some v else GoMap.get? r k

/-- The read `m[k]`: the zero value of the element type when `k` is absent. -/
def GoMap.get {α : Type} [Inhabited α] (m : GoMap α) (k : String) : α :=
  (GoMap.get? m k).getD default

/-- The write `m[k] = v`: overwrites the entry of `k`, or adds one. -/
def GoMap.set {α : Type} : GoMap α → String → α → GoMap α
  | [], k, v => [(k, v)]
  | (k', v') :: r, k, v => if k' = k then (k, v) :: r else (k', v') :: GoMap.set r k v

/-! ## Data model (validations.go, test_plan.go) -/

/-- The bytes of a rendered stream. -/
abbrev Bytes := List Nat

/-- Validation kind `Defined` (`iota` = 0). -/
def Defined : Nat := 0
/-- Validation kind `Strings` (1). -/
def Strings : Nat := 1
/-- Validation kind `Integers` (2). -/
def Integers : Nat := 2
/-- Validation kind `Partials` (3). -/
def Partials : Nat := 3

/-- The struct `KubernetesObjectValidations`; the four mappings are listed in
the order their `range` enumerates them.  `LoadManifest` sets `Object` to the
key the validations are stored under, and the resolver reads the object kind
from that field only. -/
structure KubernetesObjectValidations where
  Object : String
  Defined : GoMap Bool
  Strings : GoMap String
  Partials : GoMap String
  Integers : GoMap Int
  deriving DecidableEq, Repr

/-- The type `KustomizeLayer`: object kind to validations. -/
abbrev KustomizeLayer := GoMap KubernetesObjectValidations

/-- The type `KustomizeLayers`: overlay name to layer. -/
abbrev KustomizeLayers := GoMap KustomizeLayer

/-- The struct `TestPlan`.  The document index map is `none` while it is the
nil map. -/
structure TestPlan where
  Name : String
  Overlay : String
  KubernetesObjectToKustomizeYAMLDocumentIndex : Option (GoMap Nat)
  KubernetesObjects : List String
  KubernetesObjectToQuery : GoMap (List String)
  KustomizeBuildYAMLDocuments : Bytes
  QueryToBoolExpectation : GoMap Bool
  QueryToIntegerExpectation : GoMap Int
  QueryToKubernetesObject : GoMap String
  QueryToStringExpectation : GoMap String
  QueryToValidationType : GoMap Nat
  deriving DecidableEq, Repr

/-- The struct `Artifact`. -/
structure Artifact where
  Name : String
  TestPlans : List TestPlan
  Base : KustomizeLayer
  Overlays : KustomizeLayers
  deriving DecidableEq, Repr

/-- The struct `Manifest`. -/
structure Manifest where
  Common : GoMap KubernetesObjectValidations
  Artifacts : GoMap Artifact
  deriving DecidableEq, Repr

/-- A dynamically typed value read out of a decoded document: what
`m["kind"]` can be. -/
inductive Dyn where
  | null
  | str (s : String)
  | other
  deriving DecidableEq, Repr

/-- A decoded YAML document by dynamic type.  The decoder of
`gopkg.in/yaml.v3` gives a mapping whose keys are all strings, as every
ordinary Kubernetes object is, the type `map[string]interface{}`, and a
mapping with a key of another type the type `map[interface{}]interface{}`; of
a mapping only the value under the key `"kind"` is kept.  A scalar, a sequence
and the nil of an empty document have neither type. -/
inductive Document where
  | stringMap (kind : Dyn)
  | generalMap (kind : Dyn)
  | nonMapping
  deriving DecidableEq, Repr

/-- What one call of `decoder.Decode` reports. -/
inductive DecodeResult where
  | document (d : Document)
  | eof
  | failure
  deriving DecidableEq, Repr

/-- Why a run did not return: a runtime panic, or a loop still running when
the fuel of the model ran out. -/
inductive Abort where
  | panic
  | outOfFuel
  deriving DecidableEq, Repr

/-- The external collaborators. -/
structure Host where
  /-- Combined output of `kustomize build` in `<name>/<overlay>`, or its error. -/
  KustomizeBuild : String → String → Except String Bytes
  /-- The function `Yq`: documents, document number, query. -/
  Yq : Bytes → Nat → String → Except String String
  /-- Result of the `n`-th call (from 0) of `Decode` on a decoder over the bytes. -/
  Decode : Bytes → Nat → DecodeResult
  /-- Order in which `range` enumerates a map the program built. -/
  rangeOrder : GoMap String → GoMap String
  /-- The function `color.RedString` given one string, which it takes as its
  format. -/
  RedString : String → String
  /-- The function `color.GreenString` given one string, which it takes as its
  format. -/
  GreenString : String → String

/-! ## Rule resolution (validations.go) -/

/-- The variables the closures of `CreateTestPlan` capture. -/
structure Resolver where
  plan : TestPlan
  registeredObjects : GoMap (GoMap Bool)
  deriving DecidableEq, Repr

/-- The closure `registerKubernetesObjectToQuery`. -/
def registerKubernetesObjectToQuery (st : Resolver) (yqQuery kubernetesObject : String) :
    Resolver :=
  if !(GoMap.get (GoMap.get st.registeredObjects kubernetesObject) yqQuery) then
    let plan := { st.plan with
      KubernetesObjectToQuery :=
        GoMap.set st.plan.KubernetesObjectToQuery kubernetesObject
          (GoMap.get st.plan.KubernetesObjectToQuery kubernetesObject ++ [yqQuery]) }
    let registered :=
      match GoMap.get? st.registeredObjects kubernetesObject with
      | none => GoMap.set st.registeredObjects kubernetesObject []
      | some _ => st.registeredObjects
    { plan := plan
      registeredObjects :=
        GoMap.set registered kubernetesObject
          (GoMap.set (GoMap.get registered kubernetesObject) yqQuery true) }
  else st

/-- The closure `definedMapper`. -/
def definedMapper (st : Resolver) (yqQuery : String) (value : Bool)
    (kubernetesObjectValidations : KubernetesObjectValidations) : Resolver :=
  let plan := { st.plan with
    QueryToBoolExpectation := GoMap.set st.plan.QueryToBoolExpectation yqQuery value
    QueryToKubernetesObject :=
      GoMap.set st.plan.QueryToKubernetesObject yqQuery kubernetesObjectValidations.Object
    QueryToValidationType := GoMap.set st.plan.QueryToValidationType yqQuery Defined }
  registerKubernetesObjectToQuery { st with plan := plan } yqQuery
    kubernetesObjectValidations.Object

/-- The closure `integerMapper`. -/
def integerMapper (st : Resolver) (yqQuery : String) (value : Int)
    (kubernetesObjectValidations : KubernetesObjectValidations) : Resolver :=
  let plan := { st.plan with
    QueryToIntegerExpectation := GoMap.set st.plan.QueryToIntegerExpectation yqQuery value
    QueryToKubernetesObject :=
      GoMap.set st.plan.QueryToKubernetesObject yqQuery kubernetesObjectValidations.Object
    QueryToValidationType := GoMap.set st.plan.QueryToValidationType yqQuery Integers }
  registerKubernetesObjectToQuery { st with plan := plan } yqQuery
    kubernetesObjectValidations.Object

/-- The closure `stringMapper`. -/
def stringMapper (st : Resolver) (yqQuery : String) (value : String)
    (kubernetesObjectValidations : KubernetesObjectValidations) : Resolver :=
  let plan := { st.plan with
    QueryToStringExpectation := GoMap.set st.plan.QueryToStringExpectation yqQuery value
    QueryToKubernetesObject :=
      GoMap.set st.plan.QueryToKubernetesObject yqQuery kubernetesObjectValidations.Object
    QueryToValidationType := GoMap.set st.plan.QueryToValidationType yqQuery Strings }
  registerKubernetesObjectToQuery { st with plan := plan } yqQuery
    kubernetesObjectValidations.Object

/-- The closure `partialsMapper`. -/
def partialsMapper (st : Resolver) (yqQuery : String) (value : String)
    (kubernetesObjectValidations : KubernetesObjectValidations) : Resolver :=
  let plan := { st.plan with
    QueryToStringExpectation := GoMap.set st.plan.QueryToStringExpectation yqQuery value
    QueryToKubernetesObject :=
      GoMap.set st.plan.QueryToKubernetesObject yqQuery kubernetesObjectValidations.Object
    QueryToValidationType := GoMap.set st.plan.QueryToValidationType yqQuery Partials }
  registerKubernetesObjectToQuery { st with plan := plan } yqQuery
    kubernetesObjectValidations.Object

/-- The body of the loop over the validations of one layer: the `Defined`,
`Integers`, `Strings` and `Partials` mappings of one object kind, in that
order. -/
def mapValidations (st : Resolver)
    (kubernetesObjectValidations : KubernetesObjectValidations) : Resolver :=
  let st := kubernetesObjectValidations.Defined.foldl
    (fun s e => definedMapper s e.1 e.2 kubernetesObjectValidations) st
  let st := kubernetesObjectValidations.Integers.foldl
    (fun s e => integerMapper s e.1 e.2 kubernetesObjectValidations) st
  let st := kubernetesObjectValidations.Strings.foldl
    (fun s e => stringMapper s e.1 e.2 kubernetesObjectValidations) st
  kubernetesObjectValidations.Partials.foldl
    (fun s e => partialsMapper s e.1 e.2 kubernetesObjectValidations) st

/-- The loop `for _, kubernetesObjectValidations := range layer`. -/
def mapLayer (st : Resolver) (layer : KustomizeLayer) : Resolver :=
  layer.foldl (fun s e => mapValidations s e.2) st

/-- The loop `for o, layer := range a.Overlays` with its test `o == overlay`. -/
def mapOverlays (st : Resolver) (overlays : KustomizeLayers) (overlay : String) : Resolver :=
  overlays.foldl (fun s e => if e.1 = overlay then mapLayer s e.2 else s) st

/-- The plan and the registration map as `CreateTestPlan` initialises them. -/
def initResolver (name overlay : String) (bytes : Bytes) : Resolver :=
  { plan :=
      { Name := name
        Overlay := overlay
        KubernetesObjectToKustomizeYAMLDocumentIndex := none
        KubernetesObjects := []
        KubernetesObjectToQuery := []
        KustomizeBuildYAMLDocuments := bytes
        QueryToBoolExpectation := []
        QueryToIntegerExpectation := []
        QueryToKubernetesObject := []
        QueryToStringExpectation := []
        QueryToValidationType := [] }
    registeredObjects := [] }

/-- The method `Artifact.CreateTestPlan`. -/
def CreateTestPlan (h : Host) (a : Artifact) (overlay : String)
    (commonValidations : GoMap KubernetesObjectValidations) : Except String TestPlan :=
  match h.KustomizeBuild a.Name overlay with
  | .error err => .error err
  | .ok bytes =>
    let st := initResolver a.Name overlay bytes
    let st := mapLayer st commonValidations
    let st := mapLayer st a.Base
    if overlay = "base" then .ok st.plan
    else .ok (mapOverlays st a.Overlays overlay).plan

/-- The method `Artifact.CreateTestPlans`: the base plan, then one plan for
each overlay in the order the `range` over `a.Overlays` yields them. -/
def CreateTestPlans (h : Host) (a : Artifact)
    (commonValidations : GoMap KubernetesObjectValidations) : Except String Artifact :=
  match CreateTestPlan h a "base" commonValidations with
  | .error err => .error err
  | .ok plan =>
    a.Overlays.foldl
      (fun acc e =>
        match acc with
        | .error err => .error err
        | .ok a1 =>
          match CreateTestPlan h a1 e.1 commonValidations with
          | .error err => .error err
          | .ok p => .ok { a1 with TestPlans := a1.TestPlans ++ [p] })
      (.ok { a with TestPlans := a.TestPlans ++ [plan] })

/-! ## Plan execution (test_plan.go) -/

/-- The function `strconv.Itoa`: the decimal rendering of an integer. -/
def Itoa (n : Int) : String :=
  if n < 0 then "-" ++ Nat.repr n.natAbs else Nat.repr n.natAbs

/-- Whether the second list is an initial segment of the first. -/
def startsWith : List Char → List Char → Bool
  | _, [] => true
  | [], _ :: _ => false
  | c :: s, d :: e => decide (c = d) && startsWith s e

/-- Search for an occurrence of the second list at some position of the first. -/
def containsAt : List Char → List Char → Bool
  | [], e => startsWith [] e
  | c :: s, e => startsWith (c :: s) e || containsAt s e

/-- The function `strings.Contains`. -/
def Contains (s substr : String) : Bool :=
  containsAt s.data substr.data

/-- The decode loop of the indexer: `Decode` is called until it reports
end-of-stream; a document is appended when it reports no error, and any other
error is dropped. -/
def decodeDocuments (decode : Nat → DecodeResult) :
    Nat → Nat → List Document → Except Abort (List Document)
  | 0, _, _ => .error .outOfFuel
  | fuel + 1, n, documents =>
    match decode n with
    | .eof => .ok documents
    | .failure => decodeDocuments decode fuel (n + 1) documents
    | .document d => decodeDocuments decode fuel (n + 1) (documents ++ [d])

/-- The loop over `t.QueryToKubernetesObject` that collects the distinct
object kinds: the list `kubernetesObjects` and the set `registeredObjects`. -/
def collectKubernetesObjects (entries : GoMap String) : List String × GoMap Bool :=
  entries.foldl
    (fun s e =>
      if !(GoMap.get s.2 e.2) then (s.1 ++ [e.2], GoMap.set s.2 e.2 true) else s)
    ([], [])

/-- The body of the loop over the documents: the type assertion
`document.(map[interface{}]interface{})`, which panics on a document of any
other dynamic type, the read of `"kind"`, and the inner loop over
`kubernetesObjects`. -/
def indexDocument (kubernetesObjects : List String) (index : Nat) (document : Document)
    (m : Option (GoMap Nat)) : Except Abort (Option (GoMap Nat)) :=
  match document with
  | .stringMap _ => .error .panic
  | .nonMapping => .error .panic
  | .generalMap objectKind =>
    .ok (kubernetesObjects.foldl
      (fun m object =>
        if objectKind = Dyn.str object then some (GoMap.set (m.getD []) object index) else m)
      m)

/-- The loop `for index, document := range documents`. -/
def indexDocuments (kubernetesObjects : List String) :
    List Document → Nat → Option (GoMap Nat) → Except Abort (Option (GoMap Nat))
  | [], _, m => .ok m
  | document :: rest, index, m =>
    match indexDocument kubernetesObjects index document m with
    | .error e => .error e
    | .ok m1 => indexDocuments kubernetesObjects rest (index + 1) m1

/-- The method `TestPlan.mapKubernetesObjectsToKustomizeYAMLDocumentIndices`. -/
def mapKubernetesObjectsToKustomizeYAMLDocumentIndices (h : Host) (fuel : Nat)
    (t : TestPlan) : Except Abort TestPlan :=
  match decodeDocuments (h.Decode t.KustomizeBuildYAMLDocuments) fuel 0 [] with
  | .error e => .error e
  | .ok documents =>
    let kubernetesObjects := (collectKubernetesObjects (h.rangeOrder t.QueryToKubernetesObject)).1
    match indexDocuments kubernetesObjects documents 0
        t.KubernetesObjectToKustomizeYAMLDocumentIndex with
    | .error e => .error e
    | .ok m =>
      .ok { t with
        KubernetesObjectToKustomizeYAMLDocumentIndex := m
        KubernetesObjects := kubernetesObjects }

/-- The read `t.KubernetesObjectToKustomizeYAMLDocumentIndex[object]`, which
is 0 on a nil map and on a missing key. -/
def documentIndex (t : TestPlan) (object : String) : Nat :=
  GoMap.get (t.KubernetesObjectToKustomizeYAMLDocumentIndex.getD []) object

/-- The local variables of `Execute`, and the evaluator invocations made so
far (document number and query). -/
structure Tally where
  passes : List String
  failures : List String
  calls : List (Nat × String)
  deriving DecidableEq, Repr

/-- The `switch` on the validation kind of a query, given the output of `yq`. -/
def checkQuery (h : Host) (t : TestPlan) (object query output : String) (s : Tally) : Tally :=
  let fail := h.RedString "FAIL"
  let pass := h.GreenString "PASS"
  let line := fun (verdict tail : String) =>
    verdict ++ ": " ++ object ++ " " ++ query ++ " " ++ tail
  let kind := GoMap.get t.QueryToValidationType query
  if kind = Defined then
    let expected := GoMap.get t.QueryToBoolExpectation query
    let s := if output = "null" ∧ expected = false then
      { s with passes := s.passes ++ [line pass (h.GreenString "UNDEFINED" ++ "\n")] } else s
    let s := if output = "null" ∧ expected = true then
      { s with failures := s.failures ++ [line fail (h.RedString "UNDEFINED" ++ "\n")] } else s
    let s := if output ≠ "null" ∧ expected = true then
      { s with passes := s.passes ++ [line pass (h.GreenString "DEFINED" ++ "\n")] } else s
    if output ≠ "null" ∧ expected = false then
      { s with failures := s.failures ++ [line fail (h.RedString "DEFINED" ++ "\n")] } else s
  else if kind = Partials then
    let expected := GoMap.get t.QueryToStringExpectation query
    if Contains output expected then
      { s with passes := s.passes ++
          [line pass ("contains " ++ h.GreenString expected ++ "\n")] }
    else
      { s with failures := s.failures ++
          [line fail ("does not contain " ++ h.RedString expected ++ " \n")] }
  else if kind = Integers then
    let expected := GoMap.get t.QueryToIntegerExpectation query
    if output = Itoa expected then
      { s with passes := s.passes ++ [line pass (h.GreenString (Itoa expected) ++ "\n")] }
    else
      { s with failures := s.failures ++ [line fail (h.RedString (Itoa expected) ++ "\n")] }
  else if kind = Strings then
    let expected := GoMap.get t.QueryToStringExpectation query
    if output = expected then
      { s with passes := s.passes ++ [line pass (h.GreenString expected ++ "\n")] }
    else
      { s with failures := s.failures ++ [line fail (h.RedString expected ++ " \n")] }
  else s

/-- The inner loop `for _, query := range t.KubernetesObjectToQuery[object]`;
an error of `Yq` leaves the loops at once. -/
def executeQueries (h : Host) (t : TestPlan) (object : String) :
    List String → Tally → Tally × Option String
  | [], s => (s, none)
  | query :: rest, s =>
    let s := { s with calls := s.calls ++ [(documentIndex t object, query)] }
    match h.Yq t.KustomizeBuildYAMLDocuments (documentIndex t object) query with
    | .error err => (s, some err)
    | .ok output => executeQueries h t object rest (checkQuery h t object query output s)

/-- The outer loop `for _, object := range t.KubernetesObjects`. -/
def executeObjects (h : Host) (t : TestPlan) : List String → Tally → Tally × Option String
  | [], s => (s, none)
  | object :: rest, s =>
    match executeQueries h t object (GoMap.get t.KubernetesObjectToQuery object) s with
    | (s1, some err) => (s1, some err)
    | (s1, none) => executeObjects h t rest s1

/-- What a call of `Execute` that returns does: the returned error and
outcome, the plan as indexed, the local tallies at the return, and the failure
messages it printed. -/
structure Outcome where
  err : Option String
  pass : Bool
  plan : TestPlan
  tally : Tally
  reported : List String
  deriving DecidableEq, Repr

/-- Lexicographic comparison `a ≤ b` of two strings, character by character. -/
def lexLE : List Char → List Char → Bool
  | [], _ => true
  | _ :: _, [] => false
  | c :: s, d :: e =>
    if c.toNat < d.toNat then true else if d.toNat < c.toNat then false else lexLE s e

/-- The function `sort.Strings`: ascending lexicographic order. -/
def sortStrings (l : List String) : List String :=
  l.insertionSort (fun a b => lexLE a.data b.data = true)

/-- The method `TestPlan.Execute`. -/
def Execute (h : Host) (fuel : Nat) (t : TestPlan) : Except Abort Outcome :=
  match mapKubernetesObjectsToKustomizeYAMLDocumentIndices h fuel t with
  | .error e => .error e
  | .ok t1 =>
    match executeObjects h t1 t1.KubernetesObjects { passes := [], failures := [], calls := [] } with
    | (s, some err) =>
      .ok { err := some err, pass := false, plan := t1, tally := s, reported := [] }
    | (s, none) =>
      if s.failures.length = 0 then
        .ok { err := none, pass := true, plan := t1, tally := s, reported := [] }
      else
        let failures := sortStrings s.failures
        .ok { err := none, pass := decide (failures.length = 0), plan := t1,
              tally := { s with failures := failures }, reported := failures }

/-! ## The suite (cli/app.go) -/

/-- How the action of the command ends: `log.Fatal` on an execution error,
the error `ErrManifestValidationsFailed`, a nil error, or a run that does not
return. -/
inductive Exit where
  | fatal (err : String)
  | ErrManifestValidationsFailed
  | success
  | abort (a : Abort)
  deriving DecidableEq, Repr

/-- The local variables of the action, with the plans handed to `Execute` and
the evaluator invocations made so far. -/
structure Suite where
  suitePass : Bool
  failedPlans : List String
  passedPlans : List String
  executed : List TestPlan
  calls : List (Nat × String)
  deriving DecidableEq, Repr

/-- The identifier `fmt.Sprintf("%s/%s", testPlan.Name, testPlan.Overlay)`. -/
def planIdentifier (testPlan : TestPlan) : String :=
  testPlan.Name ++ "/" ++ testPlan.Overlay

/-- The loop `for _, testPlan := range artifact.TestPlans`. -/
def executePlans (h : Host) (fuel : Nat) (failFast : Bool) :
    List TestPlan → Suite → Suite × Option Exit
  | [], s => (s, none)
  | testPlan :: rest, s =>
    let s := { s with executed := s.executed ++ [testPlan] }
    match Execute h fuel testPlan with
    | .error a => (s, some (.abort a))
    | .ok r =>
      let s := { s with calls := s.calls ++ r.tally.calls }
      match r.err with
      | some err => (s, some (.fatal err))
      | none =>
        if !r.pass then
          if failFast then (s, some .ErrManifestValidationsFailed)
          else
            executePlans h fuel failFast rest
              { s with suitePass := false
                       failedPlans := s.failedPlans ++ [planIdentifier testPlan] }
        else
          executePlans h fuel failFast rest
            { s with passedPlans := s.passedPlans ++ [planIdentifier testPlan] }

/-- The loop `for _, artifact := range sortedArtifacts`. -/
def executeArtifacts (h : Host) (fuel : Nat) (failFast : Bool)
    (commonValidations : GoMap KubernetesObjectValidations) :
    List Artifact → Suite → Suite × Option Exit
  | [], s => (s, none)
  | artifact :: rest, s =>
    match CreateTestPlans h artifact commonValidations with
    | .error err => (s, some (.fatal err))
    | .ok artifact1 =>
      match executePlans h fuel failFast artifact1.TestPlans s with
      | (s1, some e) => (s1, some e)
      | (s1, none) => executeArtifacts h fuel failFast commonValidations rest s1

/-- The call `sort.Slice(sortedArtifacts, sortArtifacts)`: ascending by name. -/
def sortArtifacts (artifacts : List Artifact) : List Artifact :=
  artifacts.insertionSort (fun a b => lexLE a.Name.data b.Name.data = true)

/-- The variables of the action before the loop. -/
def initSuite : Suite :=
  { suitePass := true, failedPlans := [], passedPlans := [], executed := [], calls := [] }

/-- The action of the command once the manifest is loaded: the artifacts
sorted by name, the two loops, and the final `switch suitePass`. -/
def Action (h : Host) (fuel : Nat) (failFast : Bool) (validationsManifest : Manifest) :
    Suite × Exit :=
  let sortedArtifacts := sortArtifacts (validationsManifest.Artifacts.map Prod.snd)
  match executeArtifacts h fuel failFast validationsManifest.Common sortedArtifacts initSuite with
  | (s, some e) => (s, e)
  | (s, none) =>
    if s.suitePass = false then (s, .ErrManifestValidationsFailed) else (s, .success)

/-! ## Vocabulary of the statements -/

/-- The value a rule declares, tagged by the mapping that holds the rule. -/
inductive Value where
  | defined (b : Bool)
  | integer (n : Int)
  | string (s : String)
  | partials (s : String)
  deriving DecidableEq, Repr

/-- The validation kind of the mapping a rule is declared in. -/
def Value.kind : Value → Nat
  | .defined _ => Defined
  | .integer _ => Integers
  | .string _ => Strings
  | .partials _ => Partials

/-- One rule: the object kind it is declared under, the query, the value. -/
structure Declaration where
  object : String
  query : String
  value : Value
  deriving DecidableEq, Repr

/-- What the mapper of the rule's validation kind does with one rule. -/
def write (st : Resolver) (d : Declaration) : Resolver :=
  let kubernetesObjectValidations : KubernetesObjectValidations :=
    { Object := d.object, Defined := [], Strings := [], Partials := [], Integers := [] }
  match d.value with
  | .defined b => definedMapper st d.query b kubernetesObjectValidations
  | .integer n => integerMapper st d.query n kubernetesObjectValidations
  | .string s => stringMapper st d.query s kubernetesObjectValidations
  | .partials s => partialsMapper st d.query s kubernetesObjectValidations

/-- The rules of one object kind, in the order `mapValidations` visits them. -/
def declarations (v : KubernetesObjectValidations) : List Declaration :=
  v.Defined.map (fun e => { object := v.Object, query := e.1, value := .defined e.2 }) ++
  v.Integers.map (fun e => { object := v.Object, query := e.1, value := .integer e.2 }) ++
  v.Strings.map (fun e => { object := v.Object, query := e.1, value := .string e.2 }) ++
  v.Partials.map (fun e => { object := v.Object, query := e.1, value := .partials e.2 })

/-- The rules of a layer, in the order `mapLayer` visits them. -/
def layerDeclarations (layer : KustomizeLayer) : List Declaration :=
  layer.flatMap (fun e => declarations e.2)

/-- The rules of the overlay named `overlay`, in the order `mapOverlays`
visits them. -/
def overlayDeclarations (overlays : KustomizeLayers) (overlay : String) : List Declaration :=
  overlays.flatMap (fun e => if e.1 = overlay then layerDeclarations e.2 else [])

/-- The rules a resolution visits, in order: shared rules, artifact base and,
unless the plan is the one named `"base"`, the selected overlay. -/
def planDeclarations (commonValidations : GoMap KubernetesObjectValidations) (a : Artifact)
    (overlay : String) : List Declaration :=
  layerDeclarations commonValidations ++ layerDeclarations a.Base ++
    (if overlay = "base" then [] else overlayDeclarations a.Overlays overlay)

/-- A list of rules declares query `q` with value `v` (under some object kind). -/
def declares (ds : List Declaration) (q : String) (v : Value) : Prop :=
  ∃ d ∈ ds, d.query = q ∧ d.value = v

instance (ds : List Declaration) (q : String) (v : Value) : Decidable (declares ds q v) := by
  unfold declares
  exact inferInstance

/-- A list of rules has a rule for query `q`. -/
def mentions (ds : List Declaration) (q : String) : Prop :=
  ∃ d ∈ ds, d.query = q

instance (ds : List Declaration) (q : String) : Decidable (mentions ds q) := by
  unfold mentions
  exact inferInstance

/-- A list of rules declares query `q` at most once: in at most one
validation-kind mapping and under at most one object kind. -/
def atMostOnce (ds : List Declaration) (q : String) : Prop :=
  (ds.filter (fun d => decide (d.query = q))).length ≤ 1

instance (ds : List Declaration) (q : String) : Decidable (atMostOnce ds q) := by
  unfold atMostOnce
  exact inferInstance

/-- The plan holds value `v` for query `q`: the validation kind recorded for
`q` is that of `v`, and the expectation mapping `Execute` reads for that kind
has `v` under `q`. -/
def TestPlan.holds (t : TestPlan) (q : String) (v : Value) : Prop :=
  GoMap.get? t.QueryToValidationType q = some v.kind ∧
  match v with
  | .defined b => GoMap.get? t.QueryToBoolExpectation q = some b
  | .integer n => GoMap.get? t.QueryToIntegerExpectation q = some n
  | .string s => GoMap.get? t.QueryToStringExpectation q = some s
  | .partials s => GoMap.get? t.QueryToStringExpectation q = some s

instance (t : TestPlan) (q : String) (v : Value) : Decidable (t.holds q v) := by
  unfold TestPlan.holds
  cases v <;> exact inferInstance

/-- The expectation of the validation kind of `query` is met by `output`:
presence (output `"null"` exactly when absence is expected), exact string,
substring, exact integer.  A kind outside the four has no expectation. -/
def meetsExpectation (t : TestPlan) (query output : String) : Prop :=
  if GoMap.get t.QueryToValidationType query = Defined then
    (output = "null" ∧ GoMap.get t.QueryToBoolExpectation query = false) ∨
    (output ≠ "null" ∧ GoMap.get t.QueryToBoolExpectation query = true)
  else if GoMap.get t.QueryToValidationType query = Strings then
    output = GoMap.get t.QueryToStringExpectation query
  else if GoMap.get t.QueryToValidationType query = Partials then
    ∃ u v : String, output = u ++ GoMap.get t.QueryToStringExpectation query ++ v
  else if GoMap.get t.QueryToValidationType query = Integers then
    output = Itoa (GoMap.get t.QueryToIntegerExpectation query)
  else True

/-- The tallies `Execute` starts from. -/
def noTally : Tally := { passes := [], failures := [], calls := [] }

/-- The (object kind, query) pairs in the order the two loops of `Execute`
reach them. -/
def plannedPairs (t : TestPlan) : List (String × String) :=
  t.KubernetesObjects.flatMap
    (fun object => (GoMap.get t.KubernetesObjectToQuery object).map (fun query => (object, query)))

/-- The two loops of `Execute` as one loop over the planned pairs. -/
def runPairs (h : Host) (t : TestPlan) : List (String × String) → Tally → Tally × Option String
  | [], s => (s, none)
  | p :: rest, s =>
    let s := { s with calls := s.calls ++ [(documentIndex t p.1, p.2)] }
    match h.Yq t.KustomizeBuildYAMLDocuments (documentIndex t p.1) p.2 with
    | .error err => (s, some err)
    | .ok output => runPairs h t rest (checkQuery h t p.1 p.2 output s)

/-- The evaluator invocation of a planned pair. -/
def invocation (t : TestPlan) (p : String × String) : Nat × String :=
  (documentIndex t p.1, p.2)

/-- Every document of the rendered stream decodes, and the decoded documents
are `docs`: the calls of `Decode` report them one by one and then
end-of-stream. -/
def decodesTo (h : Host) (bytes : Bytes) (docs : List Document) : Prop :=
  ∀ n, h.Decode bytes n = ((docs.map DecodeResult.document)[n]?).getD .eof

/-- The registration map agrees with the query sequences, and no sequence
repeats a query: the invariant of the closure
`registerKubernetesObjectToQuery`. -/
def Registered (st : Resolver) : Prop :=
  ∀ k, (GoMap.get st.plan.KubernetesObjectToQuery k).Nodup ∧
    ∀ q, GoMap.get (GoMap.get st.registeredObjects k) q = true ↔
      q ∈ GoMap.get st.plan.KubernetesObjectToQuery k

/-- Everything the plan records under the query string `q`: validation kind,
boolean, integer and string expectation, object kind. -/
def TestPlan.entry (t : TestPlan) (q : String) :
    Option Nat × Option Bool × Option Int × Option String × Option String :=
  (GoMap.get? t.QueryToValidationType q, GoMap.get? t.QueryToBoolExpectation q,
   GoMap.get? t.QueryToIntegerExpectation q, GoMap.get? t.QueryToStringExpectation q,
   GoMap.get? t.QueryToKubernetesObject q)

/-- The plans of an artifact once `CreateTestPlans` has returned. -/
def testPlansOf (h : Host) (commonValidations : GoMap KubernetesObjectValidations)
    (a : Artifact) : List TestPlan :=
  match CreateTestPlans h a commonValidations with
  | .ok a1 => a1.TestPlans
  | .error _ => []

/-- The plans of the suite in the order the two loops of the action reach
them. -/
def suitePlans (h : Host) (validationsManifest : Manifest) : List TestPlan :=
  (sortArtifacts (validationsManifest.Artifacts.map Prod.snd)).flatMap
    (testPlansOf h validationsManifest.Common)

/-- The plans of the artifact are created without an execution error: every
render succeeds. -/
def rendersCleanly (h : Host) (commonValidations : GoMap KubernetesObjectValidations)
    (a : Artifact) : Bool :=
  match CreateTestPlans h a commonValidations with
  | .ok _ => true
  | .error _ => false

/-- The plan executes without an execution error: `Execute` returns, with a
nil error. -/
def executesCleanly (h : Host) (fuel : Nat) (p : TestPlan) : Bool :=
  match Execute h fuel p with
  | .ok r => r.err.isNone
  | .error _ => false

/-- The outcome of executing the plan is pass. -/
def planPasses (h : Host) (fuel : Nat) (p : TestPlan) : Bool :=
  match Execute h fuel p with
  | .ok r => r.pass
  | .error _ => false

/-- The evaluator invocations executing the plan makes. -/
def callsOf (h : Host) (fuel : Nat) (p : TestPlan) : List (Nat × String) :=
  match Execute h fuel p with
  | .ok r => r.tally.calls
  | .error _ => []

/-- The calls of `Decode` on the rendered stream report the results `rs`, one
per call and in this order, and end-of-stream from then on. -/
def reportsResults (h : Host) (bytes : Bytes) (rs : List DecodeResult) : Prop :=
  ∀ n, h.Decode bytes n = (rs[n]?).getD .eof

/-- The documents that a sequence of results decodes successfully, in order. -/
def decoded : List DecodeResult → List Document
  | [] => []
  | .document d :: rest => d :: decoded rest
  | .eof :: rest => decoded rest
  | .failure :: rest => decoded rest

/-! ## Concrete inputs -/

/-- A host whose renderer yields an empty stream, whose evaluator gives the
same answer to every query, and which leaves messages uncoloured. -/
def answerHost (output : String) : Host :=
  { KustomizeBuild := fun _ _ => .ok []
    Yq := fun _ _ _ => .ok output
    Decode := fun _ _ => .eof
    rangeOrder := id
    RedString := id
    GreenString := id }

/-- The host whose evaluator answers `"null"` to every query. -/
def quietHost : Host := answerHost "null"

/-- The plan resolved from a list of rules. -/
def planOf (ds : List Declaration) : TestPlan :=
  (ds.foldl write (initResolver "web" "base" [])).plan

/-- A plan with one presence rule expecting the field defined. -/
def presencePlan : TestPlan :=
  planOf [{ object := "Deployment", query := "select(.spec.replicas)", value := .defined true }]

/-- A plan with one integer rule expecting 3. -/
def integerPlan : TestPlan :=
  planOf [{ object := "Deployment", query := "select(.spec.replicas)", value := .integer 3 }]

/-- A plan with one substring rule expecting `prod`. -/
def substringPlan : TestPlan :=
  planOf [{ object := "Cluster", query := "name", value := .partials "prod" }]

/-- Rules of one object kind with a single presence rule. -/
def definedRule (object query : String) (b : Bool) : KubernetesObjectValidations :=
  { Object := object, Defined := [(query, b)], Strings := [], Partials := [], Integers := [] }

/-- Shared rules: the replicas of a Deployment must be defined. -/
def sharedReplicas : GoMap KubernetesObjectValidations :=
  [("Deployment", definedRule "Deployment" "select(.spec.replicas)" true)]

/-- An artifact with an empty base and one overlay, `prod`, that re-declares
the replicas query as absent. -/
def webArtifact : Artifact :=
  { Name := "web", TestPlans := [], Base := [],
    Overlays := [("prod", [("Deployment", definedRule "Deployment" "select(.spec.replicas)" false)])] }

/-- An artifact whose only overlay is itself named `base`. -/
def baseNamedOverlay : Artifact :=
  { Name := "web", TestPlans := [], Base := [],
    Overlays := [("base", [("Deployment", definedRule "Deployment" "select(.spec.replicas)" false)])] }

/-- A host whose evaluator fails on the query `bad` and answers `"null"` to
every other query. -/
def failingHost : Host :=
  { KustomizeBuild := fun _ _ => .ok []
    Yq := fun _ _ query => if query = "bad" then .error "exit status 1" else .ok "null"
    Decode := fun _ _ => .eof
    rangeOrder := id
    RedString := id
    GreenString := id }

/-- A plan with three presence rules of one object kind, the second on the
query `bad`. -/
def threeQueries : TestPlan :=
  planOf
    [{ object := "Service", query := "first", value := .defined true },
     { object := "Service", query := "bad", value := .defined false },
     { object := "Service", query := "third", value := .defined false }]

/-- A plan after indexing found its object kinds and no document. -/
def indexed (t : TestPlan) (objects : List String) : TestPlan :=
  { t with KubernetesObjects := objects }

/-- A host whose decoder reports the given documents, then end-of-stream. -/
def streamHost (docs : List Document) : Host :=
  { KustomizeBuild := fun _ _ => .ok []
    Yq := fun _ _ _ => .ok "null"
    Decode := fun _ n => ((docs.map DecodeResult.document)[n]?).getD .eof
    rangeOrder := id
    RedString := id
    GreenString := id }

/-- A stream of four ordinary objects, each a mapping with string keys, with
a ConfigMap at indices 1 and 3. -/
def twoConfigMaps : List Document :=
  [.stringMap (.str "Service"), .stringMap (.str "ConfigMap"),
   .stringMap (.str "Deployment"), .stringMap (.str "ConfigMap")]

/-- The same four objects, each with a key that is not a string added, so that
each decodes to the type the assertion of the indexer expects. -/
def twoKeyedConfigMaps : List Document :=
  [.generalMap (.str "Service"), .generalMap (.str "ConfigMap"),
   .generalMap (.str "Deployment"), .generalMap (.str "ConfigMap")]

/-- A plan with one rule on ConfigMaps. -/
def configMapPlan : TestPlan :=
  planOf [{ object := "ConfigMap", query := "data.mode", value := .string "on" }]

/-- Shared rules: a Service must have a name. -/
def sharedName : GoMap KubernetesObjectValidations :=
  [("Service", definedRule "Service" "metadata.name" true)]

/-- An artifact whose base declares the same query for Deployments. -/
def namedDeployment : Artifact :=
  { Name := "web", TestPlans := [],
    Base := [("Deployment", definedRule "Deployment" "metadata.name" true)],
    Overlays := [] }

/-- Shared rules with two presence rules for Deployments, enumerated `a`, `b`. -/
def sharedForward : GoMap KubernetesObjectValidations :=
  [("Deployment",
    { Object := "Deployment", Defined := [("a", true), ("b", true)], Strings := [],
      Partials := [], Integers := [] })]

/-- The same shared rules, the mapping enumerated `b`, `a`. -/
def sharedBackward : GoMap KubernetesObjectValidations :=
  [("Deployment",
    { Object := "Deployment", Defined := [("b", true), ("a", true)], Strings := [],
      Partials := [], Integers := [] })]

/-- An artifact without rules of its own. -/
def bareArtifact : Artifact :=
  { Name := "web", TestPlans := [], Base := [], Overlays := [] }

/-- A host that renders one stream for the base variant and another for every
overlay, and whose evaluator answers `"null"` on the former and `"3"` on the
latter. -/
def replicasHost : Host :=
  { KustomizeBuild := fun _ overlay => .ok (if overlay = "base" then [0] else [1])
    Yq := fun bytes _ _ => .ok (if bytes = [0] then "null" else "3")
    Decode := fun _ _ => .eof
    rangeOrder := id
    RedString := id
    GreenString := id }

/-- Rules of one object kind with a single integer rule. -/
def integerRule (object query : String) (n : Int) : KubernetesObjectValidations :=
  { Object := object, Defined := [], Strings := [], Partials := [], Integers := [(query, n)] }

/-- A manifest with one artifact and three plans: the base expects the
replicas absent, overlay `dev` expects 5 of them and overlay `prod` 3. -/
def threePlans : Manifest :=
  { Common := []
    Artifacts :=
      [("web",
        { Name := "web", TestPlans := [],
          Base := [("Deployment", definedRule "Deployment" "select(.spec.replicas)" false)],
          Overlays :=
            [("dev", [("Deployment", integerRule "Deployment" "select(.spec.replicas)" 5)]),
             ("prod", [("Deployment", integerRule "Deployment" "select(.spec.replicas)" 3)])] })] }

/-- A manifest with one artifact and one plan of three presence rules, the
first of which expects a field defined. -/
def threeRules : Manifest :=
  { Common := []
    Artifacts :=
      [("web",
        { Name := "web", TestPlans := [],
          Base :=
            [("Service",
              { Object := "Service",
                Defined := [("first", true), ("second", false), ("third", false)],
                Strings := [], Partials := [], Integers := [] })],
          Overlays := [] })] }

/-- The artifact `web` of the end-to-end scenario: an empty base and an
overlay `prod` that re-declares the replicas query as an integer rule
expecting 3. -/
def webReplicas : Artifact :=
  { Name := "web", TestPlans := [], Base := [],
    Overlays := [("prod", [("Deployment", integerRule "Deployment" "select(.spec.replicas)" 3)])] }

/-- A plan with two presence rules for Services, the query `b` before the
query `a`, both expecting the field defined. -/
def unsortedPlan : TestPlan :=
  planOf
    [{ object := "Service", query := "b", value := .defined true },
     { object := "Service", query := "a", value := .defined true }]

/-- A host whose decoder reports the given results, then end-of-stream. -/
def resultsHost (rs : List DecodeResult) : Host :=
  { KustomizeBuild := fun _ _ => .ok []
    Yq := fun _ _ _ => .ok "null"
    Decode := fun _ n => (rs[n]?).getD .eof
    rangeOrder := id
    RedString := id
    GreenString := id }

/-- A host whose decoder reports one ConfigMap and then, at every later call,
an error that is not end-of-stream. -/
def stuckHost : Host :=
  { KustomizeBuild := fun _ _ => .ok []
    Yq := fun _ _ _ => .ok "null"
    Decode := fun _ n => if n = 0 then .document (.stringMap (.str "ConfigMap")) else .failure
    rangeOrder := id
    RedString := id
    GreenString := id }

/-- A stream whose first document fails to decode and whose second document
is an ordinary ConfigMap, a mapping with string keys. -/
def failureThenConfigMap : List DecodeResult :=
  [.failure, .document (.stringMap (.str "ConfigMap"))]

/-- The same stream with a key that is not a string added to the ConfigMap. -/
def failureThenKeyedConfigMap : List DecodeResult :=
  [.failure, .document (.generalMap (.str "ConfigMap"))]

/-- A stream of a ConfigMap that passes the type assertion, having a key that
is not a string, followed by a document that is a scalar. -/
def configMapThenScalar : List Document :=
  [.generalMap (.str "ConfigMap"), .nonMapping]

/-! ## Go maps: reads after writes -/

theorem GoMap.get?_set {α : Type} (m : GoMap α) (k k' : String) (v : α) :
    GoMap.get? (GoMap.set m k v) k' = if k = k' then some v else GoMap.get? m k' := by
  induction m with
  | nil =>
    by_cases hk : k = k' <;> simp [GoMap.set, GoMap.get?, hk]
  | cons e r ih =>
    obtain ⟨k0, v0⟩ := e
    by_cases h0 : k0 = k
    · subst h0
      by_cases hk : k0 = k' <;> simp [GoMap.set, GoMap.get?, hk]
    · have hstep : GoMap.set ((k0, v0) :: r) k v = (k0, v0) :: GoMap.set r k v := by
        simp [GoMap.set, h0]
      rw [hstep]
      by_cases h1 : k0 = k'
      · have hk : ¬ k = k' := fun h => h0 (h1.trans h.symm)
        simp [GoMap.get?, h1, hk]
      · simp [GoMap.get?, h1, ih]

theorem GoMap.get?_set_self {α : Type} (m : GoMap α) (k : String) (v : α) :
    GoMap.get? (GoMap.set m k v) k = some v := by
  simp [GoMap.get?_set]

theorem GoMap.get?_set_ne {α : Type} (m : GoMap α) {k k' : String} (v : α) (hk : k ≠ k') :
    GoMap.get? (GoMap.set m k v) k' = GoMap.get? m k' := by
  simp [GoMap.get?_set, hk]

theorem GoMap.get_set {α : Type} [Inhabited α] (m : GoMap α) (k k' : String) (v : α) :
    GoMap.get (GoMap.set m k v) k' = if k = k' then v else GoMap.get m k' := by
  unfold GoMap.get
  rw [GoMap.get?_set]
  by_cases hk : k = k' <;> simp [hk]

/-! ## Resolution as a fold over the declarations -/

theorem register_plan (st : Resolver) (q k : String) :
    (registerKubernetesObjectToQuery st q k).plan =
      { st.plan with
        KubernetesObjectToQuery :=
          (registerKubernetesObjectToQuery st q k).plan.KubernetesObjectToQuery } := by
  unfold registerKubernetesObjectToQuery
  split <;> rfl

theorem write_validationType (st : Resolver) (d : Declaration) :
    (write st d).plan.QueryToValidationType =
      GoMap.set st.plan.QueryToValidationType d.query d.value.kind := by
  obtain ⟨o, q, v⟩ := d
  cases v <;>
    simp only [write, definedMapper, integerMapper, stringMapper, partialsMapper, Value.kind] <;>
    rw [register_plan]

theorem write_kubernetesObject (st : Resolver) (d : Declaration) :
    (write st d).plan.QueryToKubernetesObject =
      GoMap.set st.plan.QueryToKubernetesObject d.query d.object := by
  obtain ⟨o, q, v⟩ := d
  cases v <;>
    simp only [write, definedMapper, integerMapper, stringMapper, partialsMapper] <;>
    rw [register_plan]

theorem write_boolExpectation (st : Resolver) (d : Declaration) :
    (write st d).plan.QueryToBoolExpectation =
      match d.value with
      | .defined b => GoMap.set st.plan.QueryToBoolExpectation d.query b
      | _ => st.plan.QueryToBoolExpectation := by
  obtain ⟨o, q, v⟩ := d
  cases v <;>
    simp only [write, definedMapper, integerMapper, stringMapper, partialsMapper] <;>
    rw [register_plan]

theorem write_integerExpectation (st : Resolver) (d : Declaration) :
    (write st d).plan.QueryToIntegerExpectation =
      match d.value with
      | .integer n => GoMap.set st.plan.QueryToIntegerExpectation d.query n
      | _ => st.plan.QueryToIntegerExpectation := by
  obtain ⟨o, q, v⟩ := d
  cases v <;>
    simp only [write, definedMapper, integerMapper, stringMapper, partialsMapper] <;>
    rw [register_plan]

theorem write_stringExpectation (st : Resolver) (d : Declaration) :
    (write st d).plan.QueryToStringExpectation =
      match d.value with
      | .string s => GoMap.set st.plan.QueryToStringExpectation d.query s
      | .partials s => GoMap.set st.plan.QueryToStringExpectation d.query s
      | _ => st.plan.QueryToStringExpectation := by
  obtain ⟨o, q, v⟩ := d
  cases v <;>
    simp only [write, definedMapper, integerMapper, stringMapper, partialsMapper] <;>
    rw [register_plan]

theorem mapValidations_eq (st : Resolver) (v : KubernetesObjectValidations) :
    mapValidations st v = (declarations v).foldl write st := by
  simp only [mapValidations, declarations, List.foldl_append, List.foldl_map]
  rfl

theorem mapLayer_eq (layer : KustomizeLayer) (st : Resolver) :
    mapLayer st layer = (layerDeclarations layer).foldl write st := by
  unfold mapLayer layerDeclarations
  induction layer generalizing st with
  | nil => rfl
  | cons e r ih =>
    simp only [List.foldl_cons, List.flatMap_cons, List.foldl_append]
    rw [ih, mapValidations_eq]

theorem mapOverlays_eq (overlays : KustomizeLayers) (overlay : String) (st : Resolver) :
    mapOverlays st overlays overlay = (overlayDeclarations overlays overlay).foldl write st := by
  unfold mapOverlays overlayDeclarations
  induction overlays generalizing st with
  | nil => rfl
  | cons e r ih =>
    simp only [List.foldl_cons, List.flatMap_cons, List.foldl_append]
    rw [ih]
    by_cases he : e.1 = overlay
    · simp [he, mapLayer_eq]
    · simp [he]

theorem CreateTestPlan_eq (h : Host) (a : Artifact) (overlay : String)
    (commonValidations : GoMap KubernetesObjectValidations) (bytes : Bytes)
    (hb : h.KustomizeBuild a.Name overlay = .ok bytes) :
    CreateTestPlan h a overlay commonValidations =
      .ok ((planDeclarations commonValidations a overlay).foldl write
        (initResolver a.Name overlay bytes)).plan := by
  unfold CreateTestPlan planDeclarations
  rw [hb]
  by_cases ho : overlay = "base"
  · simp [ho, mapLayer_eq, List.foldl_append]
  · simp [ho, mapLayer_eq, mapOverlays_eq, List.foldl_append]

/-! ## What a plan records for one query -/

theorem holds_write_self (st : Resolver) (d : Declaration) :
    (write st d).plan.holds d.query d.value := by
  unfold TestPlan.holds
  rw [write_validationType, write_boolExpectation, write_integerExpectation,
    write_stringExpectation]
  obtain ⟨o, q, v⟩ := d
  cases v <;> simp [GoMap.get?_set_self]

theorem holds_write_ne (st : Resolver) (d : Declaration) (q : String) (v : Value)
    (hq : d.query ≠ q) : (write st d).plan.holds q v ↔ st.plan.holds q v := by
  unfold TestPlan.holds
  rw [write_validationType, write_boolExpectation, write_integerExpectation,
    write_stringExpectation]
  obtain ⟨o, q0, v0⟩ := d
  cases v0 <;> simp [GoMap.get?_set_ne _ _ hq]

theorem holds_foldl_ne (ds : List Declaration) (st : Resolver) (q : String) (v : Value)
    (hq : ∀ d ∈ ds, d.query ≠ q) : (ds.foldl write st).plan.holds q v ↔ st.plan.holds q v := by
  induction ds generalizing st with
  | nil => rfl
  | cons d r ih =>
    rw [List.foldl_cons, ih _ (fun d1 h1 => hq d1 (List.mem_cons_of_mem _ h1)),
      holds_write_ne _ _ _ _ (hq d (List.mem_cons_self _ _))]

/-- Last write wins: the plan holds the value of a rule that no later rule
re-declares. -/
theorem holds_last (pre post : List Declaration) (d : Declaration) (st : Resolver)
    (hpost : ∀ d1 ∈ post, d1.query ≠ d.query) :
    ((pre ++ d :: post).foldl write st).plan.holds d.query d.value := by
  rw [List.foldl_append, List.foldl_cons, holds_foldl_ne _ _ _ _ hpost]
  exact holds_write_self _ _

theorem holds_unique (t : TestPlan) (q : String) (v w : Value)
    (hv : t.holds q v) (hw : t.holds q w) : v = w := by
  unfold TestPlan.holds at hv hw
  obtain ⟨hv1, hv2⟩ := hv
  obtain ⟨hw1, hw2⟩ := hw
  rw [hv1] at hw1
  cases v <;> cases w <;> simp_all [Value.kind, Defined, Integers, Strings, Partials]

/-! ## Lists of declarations -/

theorem not_mentions_iff (ds : List Declaration) (q : String) :
    ¬ mentions ds q ↔ ∀ d ∈ ds, d.query ≠ q := by
  unfold mentions
  constructor
  · intro h d hd hq
    exact h ⟨d, hd, hq⟩
  · rintro h ⟨d, hd, hq⟩
    exact h d hd hq

/-- A rule that its list declares at most once splits the list around it. -/
theorem split_of_atMostOnce (ds : List Declaration) (d : Declaration)
    (hd : d ∈ ds) (h1 : atMostOnce ds d.query) :
    ∃ pre post, ds = pre ++ d :: post ∧ (∀ d1 ∈ pre, d1.query ≠ d.query) ∧
      ∀ d1 ∈ post, d1.query ≠ d.query := by
  obtain ⟨pre, post, rfl⟩ := List.append_of_mem hd
  refine ⟨pre, post, rfl, ?_, ?_⟩
  · intro d1 hd1 hq
    unfold atMostOnce at h1
    have hmem : d1 ∈ pre.filter (fun d0 => decide (d0.query = d.query)) :=
      List.mem_filter.mpr ⟨hd1, by simpa using hq⟩
    have hpos := List.length_pos_of_mem hmem
    simp [List.filter_append, List.filter_cons] at h1
    omega
  · intro d1 hd1 hq
    unfold atMostOnce at h1
    have hmem : d1 ∈ post.filter (fun d0 => decide (d0.query = d.query)) :=
      List.mem_filter.mpr ⟨hd1, by simpa using hq⟩
    have hpos := List.length_pos_of_mem hmem
    simp [List.filter_append, List.filter_cons] at h1
    omega

/-- Some rule for a query is the last one for it. -/
theorem split_last (ds : List Declaration) (q : String) (h : mentions ds q) :
    ∃ pre d post, ds = pre ++ d :: post ∧ d.query = q ∧ ∀ d1 ∈ post, d1.query ≠ q := by
  induction ds with
  | nil =>
    obtain ⟨d, hd, _⟩ := h
    cases hd
  | cons x r ih =>
    by_cases hr : mentions r q
    · obtain ⟨pre, d, post, hsplit, hq, hpost⟩ := ih hr
      exact ⟨x :: pre, d, post, by rw [hsplit]; rfl, hq, hpost⟩
    · obtain ⟨d, hd, hq⟩ := h
      rcases List.mem_cons.mp hd with hx | hx
      · subst hx
        exact ⟨[], d, r, rfl, hq, (not_mentions_iff r q).mp hr⟩
      · exact absurd ⟨d, hx, hq⟩ hr

/-! ## C1: override precedence -/

theorem holds_of_declares_last (pre ds post : List Declaration) (q : String) (v : Value)
    (st : Resolver) (hds : atMostOnce ds q) (hv : declares ds q v)
    (hpost : ¬ mentions post q) :
    ((pre ++ ds ++ post).foldl write st).plan.holds q v := by
  obtain ⟨d, hd, hq, hval⟩ := hv
  subst hq
  subst hval
  obtain ⟨p1, p2, hsplit, -, hp2⟩ := split_of_atMostOnce ds d hd hds
  have hrw : pre ++ ds ++ post = (pre ++ p1) ++ d :: (p2 ++ post) := by
    rw [hsplit]
    simp
  rw [hrw]
  apply holds_last
  intro d1 hd1
  rcases List.mem_append.mp hd1 with h1 | h1
  · exact hp2 d1 h1
  · exact (not_mentions_iff post d.query).mp hpost d1 h1

/-- C1, amended: for every overlay name other than `"base"` and every query
that each layer declares at most once, the plan of the overlay holds for the
query the validation kind and expectation of the last layer that declares it,
in the order shared rules, artifact base, selected overlay; the plan resolved
for `"base"` holds those of the last of shared rules and artifact base. -/
theorem CreateTestPlan_override_precedence (h : Host) (a : Artifact) (overlay : String)
    (commonValidations : GoMap KubernetesObjectValidations) (q : String)
    (bytes bytes0 : Bytes)
    (hne : overlay ≠ "base")
    (hb : h.KustomizeBuild a.Name overlay = .ok bytes)
    (hb0 : h.KustomizeBuild a.Name "base" = .ok bytes0)
    (hc : atMostOnce (layerDeclarations commonValidations) q)
    (hba : atMostOnce (layerDeclarations a.Base) q)
    (ho : atMostOnce (overlayDeclarations a.Overlays overlay) q) :
    ∃ plan plan0,
      CreateTestPlan h a overlay commonValidations = .ok plan ∧
      CreateTestPlan h a "base" commonValidations = .ok plan0 ∧
      (∀ v, declares (overlayDeclarations a.Overlays overlay) q v → plan.holds q v) ∧
      (¬ mentions (overlayDeclarations a.Overlays overlay) q →
        ∀ v, declares (layerDeclarations a.Base) q v → plan.holds q v) ∧
      (¬ mentions (overlayDeclarations a.Overlays overlay) q →
        ¬ mentions (layerDeclarations a.Base) q →
        ∀ v, declares (layerDeclarations commonValidations) q v → plan.holds q v) ∧
      (∀ v, declares (layerDeclarations a.Base) q v → plan0.holds q v) ∧
      (¬ mentions (layerDeclarations a.Base) q →
        ∀ v, declares (layerDeclarations commonValidations) q v → plan0.holds q v) := by
  refine ⟨_, _, CreateTestPlan_eq h a overlay commonValidations bytes hb,
    CreateTestPlan_eq h a "base" commonValidations bytes0 hb0, ?_, ?_, ?_, ?_, ?_⟩
  · intro v hv
    have key := holds_of_declares_last
      (layerDeclarations commonValidations ++ layerDeclarations a.Base)
      (overlayDeclarations a.Overlays overlay) [] q v (initResolver a.Name overlay bytes) ho hv
      (by rintro ⟨d, hd, -⟩; cases hd)
    simpa [planDeclarations, hne] using key
  · intro hno v hv
    have key := holds_of_declares_last (layerDeclarations commonValidations)
      (layerDeclarations a.Base) (overlayDeclarations a.Overlays overlay) q v
      (initResolver a.Name overlay bytes) hba hv hno
    simpa [planDeclarations, hne] using key
  · intro hno hnb v hv
    have key := holds_of_declares_last [] (layerDeclarations commonValidations)
      (layerDeclarations a.Base ++ overlayDeclarations a.Overlays overlay) q v
      (initResolver a.Name overlay bytes) hc hv
      (by
        rintro ⟨d, hd, hq⟩
        rcases List.mem_append.mp hd with h1 | h1
        · exact hnb ⟨d, h1, hq⟩
        · exact hno ⟨d, h1, hq⟩)
    simpa [planDeclarations, hne] using key
  · intro v hv
    have key := holds_of_declares_last (layerDeclarations commonValidations)
      (layerDeclarations a.Base) [] q v (initResolver a.Name "base" bytes0) hba hv
      (by rintro ⟨d, hd, -⟩; cases hd)
    simpa [planDeclarations] using key
  · intro hnb v hv
    have key := holds_of_declares_last [] (layerDeclarations commonValidations)
      (layerDeclarations a.Base) q v (initResolver a.Name "base" bytes0) hc hv hnb
    simpa [planDeclarations] using key

/-- Witness of C1: shared rules expect the replicas defined, overlay `prod`
expects them absent; the plan of `prod` holds the overlay's expectation and
the base plan the shared one. -/
theorem CreateTestPlan_override_precedence_witness :
    ∃ plan plan0,
      CreateTestPlan quietHost webArtifact "prod" sharedReplicas = .ok plan ∧
      CreateTestPlan quietHost webArtifact "base" sharedReplicas = .ok plan0 ∧
      plan.holds "select(.spec.replicas)" (.defined false) ∧
      plan0.holds "select(.spec.replicas)" (.defined true) := by
  obtain ⟨plan, plan0, h1, h2, h3, -, -, -, h7⟩ :=
    CreateTestPlan_override_precedence quietHost webArtifact "prod" sharedReplicas
      "select(.spec.replicas)" [] [] (by decide) rfl rfl (by decide) (by decide) (by decide)
  exact ⟨plan, plan0, h1, h2, h3 _ (by decide), h7 (by decide) _ (by decide)⟩

/-- C1 as stated fails for an overlay that is itself named `"base"`: the
name is a key of the overlays and the overlay re-declares the query with
expectation `false`, yet the plan resolved for that name holds the shared
expectation `true`, because resolution for `"base"` returns before the
overlays are visited. -/
theorem CreateTestPlan_override_precedence_counterexample :
    ∃ plan, CreateTestPlan quietHost baseNamedOverlay "base" sharedReplicas = .ok plan ∧
      "base" ∈ baseNamedOverlay.Overlays.map Prod.fst ∧
      atMostOnce (layerDeclarations sharedReplicas) "select(.spec.replicas)" ∧
      atMostOnce (layerDeclarations baseNamedOverlay.Base) "select(.spec.replicas)" ∧
      atMostOnce (overlayDeclarations baseNamedOverlay.Overlays "base")
        "select(.spec.replicas)" ∧
      declares (overlayDeclarations baseNamedOverlay.Overlays "base")
        "select(.spec.replicas)" (.defined false) ∧
      ¬ plan.holds "select(.spec.replicas)" (.defined false) ∧
      plan.holds "select(.spec.replicas)" (.defined true) := by
  refine ⟨_, rfl, ?_, ?_, ?_, ?_, ?_, ?_, ?_⟩ <;> decide

/-! ## C2, C3, C4: the expectation of each validation kind -/

theorem startsWith_iff (s e : List Char) : startsWith s e = true ↔ ∃ v, s = e ++ v := by
  induction e generalizing s with
  | nil => simp [startsWith]
  | cons d e ih =>
    cases s with
    | nil => simp [startsWith]
    | cons c s =>
      simp only [startsWith, Bool.and_eq_true, decide_eq_true_eq, ih, List.cons_append,
        List.cons.injEq]
      constructor
      · rintro ⟨rfl, v, rfl⟩
        exact ⟨v, rfl, rfl⟩
      · rintro ⟨v, rfl, rfl⟩
        exact ⟨rfl, v, rfl⟩

theorem containsAt_iff (s e : List Char) :
    containsAt s e = true ↔ ∃ u v, s = u ++ e ++ v := by
  induction s with
  | nil =>
    simp only [containsAt, startsWith_iff]
    constructor
    · rintro ⟨v, hv⟩
      exact ⟨[], v, by simpa using hv⟩
    · rintro ⟨u, v, hv⟩
      have h1 : u ++ e ++ v = [] := hv.symm
      simp only [List.append_eq_nil] at h1
      obtain ⟨⟨-, he⟩, hv0⟩ := h1
      exact ⟨[], by simp [he]⟩
  | cons c s ih =>
    simp only [containsAt, Bool.or_eq_true, startsWith_iff, ih]
    constructor
    · rintro (⟨v, hv⟩ | ⟨u, v, hv⟩)
      · exact ⟨[], v, by simpa using hv⟩
      · exact ⟨c :: u, v, by simp [hv]⟩
    · rintro ⟨u, v, hv⟩
      cases u with
      | nil => exact Or.inl ⟨v, by simpa using hv⟩
      | cons c1 u =>
        simp only [List.cons_append, List.cons.injEq] at hv
        exact Or.inr ⟨u, v, hv.2⟩

/-- The function `Contains` finds exactly the contiguous substrings. -/
theorem Contains_iff (s e : String) : Contains s e = true ↔ ∃ u v : String, s = u ++ e ++ v := by
  unfold Contains
  rw [containsAt_iff]
  constructor
  · rintro ⟨u, v, hv⟩
    refine ⟨⟨u⟩, ⟨v⟩, ?_⟩
    apply String.ext
    simpa using hv
  · rintro ⟨u, v, hv⟩
    refine ⟨u.data, v.data, ?_⟩
    rw [hv]
    simp

/-- C2: in the loop of `Execute`, a query whose validation kind is `Defined`
with expected boolean `b` records exactly one entry for the output of the
evaluator: a pass iff the output is `"null"` and `b` is false, or the output
is not `"null"` and `b` is true; a failure in the two other combinations. -/
theorem Execute_presence (h : Host) (t : TestPlan) (object query output : String)
    (rest : List String) (s : Tally) (b : Bool)
    (hy : h.Yq t.KustomizeBuildYAMLDocuments (documentIndex t object) query = .ok output)
    (hk : GoMap.get t.QueryToValidationType query = Defined)
    (hb : GoMap.get t.QueryToBoolExpectation query = b) :
    ∃ entry, executeQueries h t object (query :: rest) s =
      executeQueries h t object rest
        (if (output = "null" ∧ b = false) ∨ (output ≠ "null" ∧ b = true) then
          { passes := s.passes ++ [entry], failures := s.failures,
            calls := s.calls ++ [(documentIndex t object, query)] }
        else
          { passes := s.passes, failures := s.failures ++ [entry],
            calls := s.calls ++ [(documentIndex t object, query)] }) := by
  simp only [executeQueries, hy, checkQuery, hk, if_true, hb]
  by_cases ho : output = "null" <;> cases b <;> simp [ho] <;> exact ⟨_, rfl⟩

/-- C3: in the loop of `Execute`, a query whose validation kind is `Integers`
with expected integer `n` records a pass iff the output of the evaluator is
exactly the decimal rendering of `n`, and a failure otherwise; exactly one
output passes. -/
theorem Execute_integer (h : Host) (t : TestPlan) (object query output : String)
    (rest : List String) (s : Tally) (n : Int)
    (hy : h.Yq t.KustomizeBuildYAMLDocuments (documentIndex t object) query = .ok output)
    (hk : GoMap.get t.QueryToValidationType query = Integers)
    (hn : GoMap.get t.QueryToIntegerExpectation query = n) :
    (∃ entry, executeQueries h t object (query :: rest) s =
      executeQueries h t object rest
        (if output = Itoa n then
          { passes := s.passes ++ [entry], failures := s.failures,
            calls := s.calls ++ [(documentIndex t object, query)] }
        else
          { passes := s.passes, failures := s.failures ++ [entry],
            calls := s.calls ++ [(documentIndex t object, query)] })) ∧
    (∃! out, (checkQuery h t object query out s).failures = s.failures) := by
  have hkinds : Integers ≠ Defined ∧ Integers ≠ Partials := by decide
  constructor
  · simp only [executeQueries, hy, checkQuery, hk, hn, if_neg hkinds.1, if_neg hkinds.2,
      if_true]
    by_cases ho : output = Itoa n <;> simp [ho] <;> exact ⟨_, rfl⟩
  · refine ⟨Itoa n, ?_, ?_⟩
    · simp [checkQuery, hk, hn, if_neg hkinds.1, if_neg hkinds.2]
    · intro out hout
      by_contra hne
      simp [checkQuery, hk, hn, if_neg hkinds.1, if_neg hkinds.2, hne] at hout

/-- C4: in the loop of `Execute`, a query whose validation kind is `Partials`
with expected string `e` records a pass iff `e` occurs as a contiguous
substring of the output of the evaluator, and a failure otherwise. -/
theorem Execute_substring (h : Host) (t : TestPlan) (object query output : String)
    (rest : List String) (s : Tally) (e : String)
    (hy : h.Yq t.KustomizeBuildYAMLDocuments (documentIndex t object) query = .ok output)
    (hk : GoMap.get t.QueryToValidationType query = Partials)
    (he : GoMap.get t.QueryToStringExpectation query = e) :
    ((∃ u v : String, output = u ++ e ++ v) →
      ∃ entry, executeQueries h t object (query :: rest) s =
        executeQueries h t object rest
          { passes := s.passes ++ [entry], failures := s.failures,
            calls := s.calls ++ [(documentIndex t object, query)] }) ∧
    ((¬ ∃ u v : String, output = u ++ e ++ v) →
      ∃ entry, executeQueries h t object (query :: rest) s =
        executeQueries h t object rest
          { passes := s.passes, failures := s.failures ++ [entry],
            calls := s.calls ++ [(documentIndex t object, query)] }) := by
  have hkinds : Partials ≠ Defined := by decide
  simp only [executeQueries, hy, checkQuery, hk, he, if_neg hkinds, if_true]
  constructor
  · intro hex
    rw [if_pos ((Contains_iff output e).mpr hex)]
    exact ⟨_, rfl⟩
  · intro hex
    rw [if_neg (fun hc => hex ((Contains_iff output e).mp hc))]
    exact ⟨_, rfl⟩

/-- Witness of C2: expected defined, the evaluator answers `"null"`: one
failure is recorded and no pass. -/
theorem Execute_presence_witness :
    ∃ entry, executeQueries quietHost presencePlan "Deployment" ["select(.spec.replicas)"]
        noTally =
      executeQueries quietHost presencePlan "Deployment" []
        (if (("null" : String) = "null" ∧ true = false) ∨ (("null" : String) ≠ "null" ∧ true = true)
        then
          { passes := noTally.passes ++ [entry], failures := noTally.failures,
            calls := noTally.calls ++
              [(documentIndex presencePlan "Deployment", "select(.spec.replicas)")] }
        else
          { passes := noTally.passes, failures := noTally.failures ++ [entry],
            calls := noTally.calls ++
              [(documentIndex presencePlan "Deployment", "select(.spec.replicas)")] }) :=
  Execute_presence quietHost presencePlan "Deployment" "select(.spec.replicas)" "null" []
    noTally true rfl (by decide) (by decide)

/-- Witness of C3: expected 3; the outputs `"03"` and `"3.0"` record a
failure, the output `"3"` records none. -/
theorem Execute_integer_witness :
    (checkQuery (answerHost "3") integerPlan "Deployment" "select(.spec.replicas)" "3"
      noTally).failures = [] ∧
    (checkQuery (answerHost "03") integerPlan "Deployment" "select(.spec.replicas)" "03"
      noTally).failures ≠ [] ∧
    (checkQuery (answerHost "3.0") integerPlan "Deployment" "select(.spec.replicas)" "3.0"
      noTally).failures ≠ [] ∧
    ∃! out, (checkQuery (answerHost "03") integerPlan "Deployment" "select(.spec.replicas)"
      out noTally).failures = noTally.failures :=
  ⟨by decide, by decide, by decide,
    (Execute_integer (answerHost "03") integerPlan "Deployment" "select(.spec.replicas)" "03" []
      noTally 3 rfl (by decide) (by decide)).2⟩

/-- Witness of C4: expected `prod`; the output `my-prod-cluster` records a
pass and the output `dev-cluster` a failure. -/
theorem Execute_substring_witness :
    (∃ entry, executeQueries (answerHost "my-prod-cluster") substringPlan "Cluster" ["name"]
        noTally =
      executeQueries (answerHost "my-prod-cluster") substringPlan "Cluster" []
        { passes := noTally.passes ++ [entry], failures := noTally.failures,
          calls := noTally.calls ++ [(documentIndex substringPlan "Cluster", "name")] }) ∧
    (∃ entry, executeQueries (answerHost "dev-cluster") substringPlan "Cluster" ["name"]
        noTally =
      executeQueries (answerHost "dev-cluster") substringPlan "Cluster" []
        { passes := noTally.passes, failures := noTally.failures ++ [entry],
          calls := noTally.calls ++ [(documentIndex substringPlan "Cluster", "name")] }) :=
  ⟨(Execute_substring (answerHost "my-prod-cluster") substringPlan "Cluster" "name"
      "my-prod-cluster" [] noTally "prod" rfl (by decide) (by decide)).1
      ⟨"my-", "-cluster", by decide⟩,
    (Execute_substring (answerHost "dev-cluster") substringPlan "Cluster" "name"
      "dev-cluster" [] noTally "prod" rfl (by decide) (by decide)).2
      (fun hc => absurd ((Contains_iff "dev-cluster" "prod").mpr hc) (by decide))⟩

/-! ## C5, C6: the outcome of a plan -/

theorem executeQueries_eq_runPairs (h : Host) (t : TestPlan) (object : String)
    (qs : List String) (s : Tally) :
    executeQueries h t object qs s = runPairs h t (qs.map (fun query => (object, query))) s := by
  induction qs generalizing s with
  | nil => rfl
  | cons q r ih =>
    simp only [executeQueries, List.map_cons, runPairs]
    cases h.Yq t.KustomizeBuildYAMLDocuments (documentIndex t object) q with
    | error e => rfl
    | ok out => exact ih _

theorem runPairs_append (h : Host) (t : TestPlan) (p1 p2 : List (String × String)) (s : Tally) :
    runPairs h t (p1 ++ p2) s =
      match runPairs h t p1 s with
      | (s1, some e) => (s1, some e)
      | (s1, none) => runPairs h t p2 s1 := by
  induction p1 generalizing s with
  | nil => rfl
  | cons p r ih =>
    simp only [List.cons_append, runPairs]
    cases h.Yq t.KustomizeBuildYAMLDocuments (documentIndex t p.1) p.2 with
    | error e => rfl
    | ok out => exact ih _

theorem executeObjects_eq_runPairs (h : Host) (t : TestPlan) (objects : List String)
    (s : Tally) :
    executeObjects h t objects s =
      runPairs h t
        (objects.flatMap (fun object =>
          (GoMap.get t.KubernetesObjectToQuery object).map (fun query => (object, query)))) s := by
  induction objects generalizing s with
  | nil => rfl
  | cons o r ih =>
    simp only [executeObjects, List.flatMap_cons, runPairs_append, executeQueries_eq_runPairs]
    rcases runPairs h t ((GoMap.get t.KubernetesObjectToQuery o).map (fun query => (o, query))) s
      with ⟨s1, _ | e⟩
    · exact ih _
    · rfl

theorem checkQuery_calls (h : Host) (t : TestPlan) (object query output : String) (s : Tally) :
    (checkQuery h t object query output s).calls = s.calls := by
  unfold checkQuery
  simp only
  repeat' split
  all_goals rfl

theorem checkQuery_failures_nil (h : Host) (t : TestPlan) (object query output : String)
    (s : Tally) :
    (checkQuery h t object query output s).failures = [] ↔
      s.failures = [] ∧ meetsExpectation t query output := by
  unfold checkQuery meetsExpectation
  simp only [Defined, Strings, Integers, Partials]
  generalize GoMap.get t.QueryToValidationType query = kind
  by_cases h0 : kind = 0
  · subst h0
    by_cases ho : output = "null" <;>
      cases GoMap.get t.QueryToBoolExpectation query <;> simp [ho]
  · by_cases h3 : kind = 3
    · subst h3
      by_cases hc : Contains output (GoMap.get t.QueryToStringExpectation query) = true
      · simp [hc, (Contains_iff _ _).mp hc]
      · have hex : ¬ ∃ u v : String,
            output = u ++ GoMap.get t.QueryToStringExpectation query ++ v :=
          fun hx => hc ((Contains_iff _ _).mpr hx)
        simp only [hc, hex]
        simp
    · by_cases h2 : kind = 2
      · subst h2
        by_cases ho : output = Itoa (GoMap.get t.QueryToIntegerExpectation query) <;> simp [ho]
      · by_cases h1 : kind = 1
        · subst h1
          by_cases ho : output = GoMap.get t.QueryToStringExpectation query <;> simp [ho]
        · simp [h0, h1, h2, h3]

theorem runPairs_ok (h : Host) (t : TestPlan) (ps : List (String × String)) (s : Tally)
    (hy : ∀ p ∈ ps, ∃ out,
      h.Yq t.KustomizeBuildYAMLDocuments (documentIndex t p.1) p.2 = .ok out) :
    (runPairs h t ps s).2 = none ∧
    (runPairs h t ps s).1.calls = s.calls ++ ps.map (invocation t) ∧
    ((runPairs h t ps s).1.failures = [] ↔
      s.failures = [] ∧ ∀ p ∈ ps, ∀ out,
        h.Yq t.KustomizeBuildYAMLDocuments (documentIndex t p.1) p.2 = .ok out →
        meetsExpectation t p.2 out) := by
  induction ps generalizing s with
  | nil => simp [runPairs]
  | cons p r ih =>
    obtain ⟨out, hout⟩ := hy p (List.mem_cons_self _ _)
    have hr := ih (checkQuery h t p.1 p.2 out
      { s with calls := s.calls ++ [(documentIndex t p.1, p.2)] })
      (fun p1 hp1 => hy p1 (List.mem_cons_of_mem _ hp1))
    simp only [runPairs, hout]
    refine ⟨hr.1, ?_, ?_⟩
    · rw [hr.2.1, checkQuery_calls]
      simp [invocation]
    · rw [hr.2.2, checkQuery_failures_nil]
      simp only [List.mem_cons, forall_eq_or_imp, hout, Except.ok.injEq, forall_eq']
      tauto

theorem sortStrings_eq_nil (l : List String) : sortStrings l = [] ↔ l = [] := by
  rw [← List.length_eq_zero, ← List.length_eq_zero (l := l)]
  unfold sortStrings
  rw [List.length_insertionSort]

/-- The method `Execute` once indexing has returned. -/
theorem Execute_eq (h : Host) (fuel : Nat) (t t1 : TestPlan)
    (hidx : mapKubernetesObjectsToKustomizeYAMLDocumentIndices h fuel t = .ok t1) :
    Execute h fuel t =
      match runPairs h t1 (plannedPairs t1) noTally with
      | (s, some err) =>
        .ok { err := some err, pass := false, plan := t1, tally := s, reported := [] }
      | (s, none) =>
        if s.failures.length = 0 then
          .ok { err := none, pass := true, plan := t1, tally := s, reported := [] }
        else
          .ok { err := none, pass := decide ((sortStrings s.failures).length = 0), plan := t1,
                tally := { s with failures := sortStrings s.failures },
                reported := sortStrings s.failures } := by
  unfold Execute
  rw [hidx]
  simp only [executeObjects_eq_runPairs]
  rfl

/-- C5: when no evaluator invocation errors, `Execute` returns a nil error,
and its outcome is pass iff no failure was recorded, that is iff every
(object kind, query) pair it evaluated met the expectation of the query's
validation kind. -/
theorem Execute_outcome (h : Host) (fuel : Nat) (t t1 : TestPlan)
    (hidx : mapKubernetesObjectsToKustomizeYAMLDocumentIndices h fuel t = .ok t1)
    (hy : ∀ p ∈ plannedPairs t1, ∃ out,
      h.Yq t1.KustomizeBuildYAMLDocuments (documentIndex t1 p.1) p.2 = .ok out) :
    ∃ r, Execute h fuel t = .ok r ∧ r.err = none ∧
      (r.pass = true ↔ r.tally.failures = []) ∧
      (r.pass = true ↔ ∀ p ∈ plannedPairs t1, ∀ out,
        h.Yq t1.KustomizeBuildYAMLDocuments (documentIndex t1 p.1) p.2 = .ok out →
        meetsExpectation t1 p.2 out) := by
  rw [Execute_eq h fuel t t1 hidx]
  obtain ⟨h2, -, hf⟩ := runPairs_ok h t1 (plannedPairs t1) noTally hy
  rcases hrp : runPairs h t1 (plannedPairs t1) noTally with ⟨s, e⟩
  rw [hrp] at h2 hf
  simp only at h2 hf
  subst h2
  have hf1 : s.failures = [] ↔ ∀ p ∈ plannedPairs t1, ∀ out,
      h.Yq t1.KustomizeBuildYAMLDocuments (documentIndex t1 p.1) p.2 = .ok out →
      meetsExpectation t1 p.2 out := by
    rw [hf]
    simp [noTally]
  by_cases hlen : s.failures.length = 0
  · have hnil : s.failures = [] := List.length_eq_zero.mp hlen
    simp only [if_pos hlen]
    refine ⟨_, rfl, rfl, ?_, ?_⟩
    · simp [hnil]
    · simp only [true_iff]
      exact hf1.mp hnil
  · have hnil : ¬ s.failures = [] := fun hc => hlen (List.length_eq_zero.mpr hc)
    have hsort : ¬ sortStrings s.failures = [] := fun hc => hnil ((sortStrings_eq_nil _).mp hc)
    simp only [if_neg hlen]
    refine ⟨_, rfl, rfl, ?_, ?_⟩
    · simp [hsort]
    · rw [← hf1]
      simp [hsort, hnil]

/-- C6: when the evaluator errors on a query (and on none before it),
`Execute` returns that error with outcome false, has invoked the evaluator for
the queries up to the erroring one and for none after it, and holds exactly
the entries recorded for the queries before it; when no invocation errors,
`Execute` returns a nil error. -/
theorem Execute_invocation_error (h : Host) (fuel : Nat) (t t1 : TestPlan)
    (hidx : mapKubernetesObjectsToKustomizeYAMLDocumentIndices h fuel t = .ok t1) :
    (∀ pre p post e, plannedPairs t1 = pre ++ p :: post →
      (∀ p1 ∈ pre, ∃ out,
        h.Yq t1.KustomizeBuildYAMLDocuments (documentIndex t1 p1.1) p1.2 = .ok out) →
      h.Yq t1.KustomizeBuildYAMLDocuments (documentIndex t1 p.1) p.2 = .error e →
      ∃ r, Execute h fuel t = .ok r ∧ r.err = some e ∧ r.pass = false ∧
        r.tally.calls = (pre ++ [p]).map (invocation t1) ∧
        r.tally.passes = (runPairs h t1 pre noTally).1.passes ∧
        r.tally.failures = (runPairs h t1 pre noTally).1.failures ∧
        (runPairs h t1 pre noTally).2 = none ∧
        r.reported = []) ∧
    ((∀ p ∈ plannedPairs t1, ∃ out,
        h.Yq t1.KustomizeBuildYAMLDocuments (documentIndex t1 p.1) p.2 = .ok out) →
      ∃ r, Execute h fuel t = .ok r ∧ r.err = none) := by
  constructor
  · intro pre p post e hsplit hpre herr
    rw [Execute_eq h fuel t t1 hidx, hsplit, runPairs_append]
    obtain ⟨h2, hcalls, -⟩ := runPairs_ok h t1 pre noTally hpre
    rcases hrp : runPairs h t1 pre noTally with ⟨s, e1⟩
    rw [hrp] at h2 hcalls
    simp only at h2 hcalls
    subst h2
    simp only [runPairs, herr]
    refine ⟨_, rfl, ?_⟩
    simp [hcalls, noTally, invocation]
  · intro hy
    rw [Execute_eq h fuel t t1 hidx]
    obtain ⟨h2, -, -⟩ := runPairs_ok h t1 (plannedPairs t1) noTally hy
    rcases hrp : runPairs h t1 (plannedPairs t1) noTally with ⟨s, e⟩
    rw [hrp] at h2
    simp only at h2
    subst h2
    by_cases hlen : s.failures.length = 0
    · simp only [if_pos hlen]
      exact ⟨_, rfl, rfl⟩
    · simp only [if_neg hlen]
      exact ⟨_, rfl, rfl⟩

/-- Witness of C5: one presence rule expecting the field defined, evaluator
answering `"null"`. -/
theorem Execute_outcome_witness :
    ∃ r, Execute quietHost 1 presencePlan = .ok r ∧ r.err = none ∧
      (r.pass = true ↔ r.tally.failures = []) ∧
      (r.pass = true ↔ ∀ p ∈ plannedPairs (indexed presencePlan ["Deployment"]), ∀ out,
        quietHost.Yq (indexed presencePlan ["Deployment"]).KustomizeBuildYAMLDocuments
          (documentIndex (indexed presencePlan ["Deployment"]) p.1) p.2 = .ok out →
        meetsExpectation (indexed presencePlan ["Deployment"]) p.2 out) :=
  Execute_outcome quietHost 1 presencePlan (indexed presencePlan ["Deployment"]) rfl
    (fun _ _ => ⟨"null", rfl⟩)

/-- Witness of C6: the evaluator fails on the second of three queries; the
error is returned, the first two queries were invoked and the third was not. -/
theorem Execute_invocation_error_witness :
    ∃ r, Execute failingHost 1 threeQueries = .ok r ∧ r.err = some "exit status 1" ∧
      r.pass = false ∧
      r.tally.calls = ([("Service", "first")] ++ [("Service", "bad")]).map
        (invocation (indexed threeQueries ["Service"])) ∧
      r.tally.passes =
        (runPairs failingHost (indexed threeQueries ["Service"]) [("Service", "first")]
          noTally).1.passes ∧
      r.tally.failures =
        (runPairs failingHost (indexed threeQueries ["Service"]) [("Service", "first")]
          noTally).1.failures ∧
      (runPairs failingHost (indexed threeQueries ["Service"]) [("Service", "first")]
          noTally).2 = none ∧
      r.reported = [] :=
  (Execute_invocation_error failingHost 1 threeQueries (indexed threeQueries ["Service"])
    rfl).1 [("Service", "first")] ("Service", "bad") [("Service", "third")] "exit status 1"
    (by decide) (fun _ _ => ⟨"null", by simp_all [failingHost]⟩) rfl

/-! ## The document index -/

theorem decodeDocuments_stream (decode : Nat → DecodeResult) (rest : List Document) (n : Nat)
    (acc : List Document) (fuel : Nat) (hfuel : rest.length < fuel)
    (hdec : ∀ i, decode (n + i) = ((rest.map DecodeResult.document)[i]?).getD .eof) :
    decodeDocuments decode fuel n acc = .ok (acc ++ rest) := by
  induction rest generalizing n acc fuel with
  | nil =>
    cases fuel with
    | zero => omega
    | succ f =>
      have h0 := hdec 0
      simp only [Nat.add_zero, List.map_nil, List.getElem?_nil, Option.getD_none] at h0
      simp [decodeDocuments, h0]
  | cons d r ih =>
    cases fuel with
    | zero => simp at hfuel
    | succ f =>
      have h0 := hdec 0
      simp only [Nat.add_zero, List.map_cons, List.getElem?_cons_zero, Option.getD_some] at h0
      simp only [decodeDocuments, h0]
      rw [ih (n + 1) (acc ++ [d]) f (by simpa using hfuel)]
      · simp
      · intro i
        have hi := hdec (i + 1)
        simp only [List.map_cons, List.getElem?_cons_succ] at hi
        rw [← hi]
        congr 1
        omega

theorem indexObjects_get? (objects : List String) (kind : Dyn) (index : Nat) (k : String)
    (m : Option (GoMap Nat)) :
    GoMap.get?
      ((objects.foldl
        (fun m object =>
          if kind = Dyn.str object then some (GoMap.set (m.getD []) object index) else m)
        m).getD []) k =
      if kind = Dyn.str k ∧ k ∈ objects then some index else GoMap.get? (m.getD []) k := by
  induction objects generalizing m with
  | nil => simp
  | cons o r ih =>
    rw [List.foldl_cons, ih]
    by_cases hk : kind = Dyn.str k
    · by_cases hr : k ∈ r
      · simp [hk, hr]
      · by_cases ho : o = k
        · subst ho
          simp [hk, GoMap.get?_set_self]
        · have hne : ¬ k = o := fun hc => ho hc.symm
          simp [hk, hr, hne, ho]
    · simp only [hk, false_and, if_false]
      by_cases ho : kind = Dyn.str o
      · have hne : o ≠ k := by
          intro hc
          rw [hc] at ho
          exact hk ho
        simp only [ho, if_true, Option.getD_some]
        exact GoMap.get?_set_ne _ _ hne
      · simp only [ho, if_false]

theorem indexDocuments_append (objects : List String) (a b : List Document) (index : Nat)
    (m : Option (GoMap Nat)) :
    indexDocuments objects (a ++ b) index m =
      match indexDocuments objects a index m with
      | .error e => .error e
      | .ok m1 => indexDocuments objects b (index + a.length) m1 := by
  induction a generalizing index m with
  | nil => rfl
  | cons d r ih =>
    simp only [List.cons_append, indexDocuments]
    cases indexDocument objects index d m with
    | error e => rfl
    | ok m1 =>
      change indexDocuments objects (r ++ b) (index + 1) m1 = _
      rw [ih, List.length_cons, Nat.add_assoc, Nat.add_comm 1]

/-- Documents that all pass the type assertion and are not of kind `k` are indexed without
a fault and leave the entry of `k` as it was. -/
theorem indexDocuments_other (objects : List String) (docs : List Document) (index : Nat)
    (m : Option (GoMap Nat)) (k : String)
    (hmap : ∀ d ∈ docs, ∃ kind, d = Document.generalMap kind)
    (hk : ∀ d ∈ docs, d ≠ Document.generalMap (Dyn.str k)) :
    ∃ m1, indexDocuments objects docs index m = .ok m1 ∧
      GoMap.get? (m1.getD []) k = GoMap.get? (m.getD []) k := by
  induction docs generalizing index m with
  | nil => exact ⟨m, rfl, rfl⟩
  | cons d r ih =>
    obtain ⟨kind, rfl⟩ := hmap d (List.mem_cons_self _ _)
    have hkind : ¬ kind = Dyn.str k := by
      intro hc
      exact hk (Document.generalMap kind) (List.mem_cons_self _ _) (by rw [hc])
    simp only [indexDocuments, indexDocument]
    obtain ⟨m1, h1, h2⟩ := ih (index + 1) _
      (fun d1 hd1 => hmap d1 (List.mem_cons_of_mem _ hd1))
      (fun d1 hd1 => hk d1 (List.mem_cons_of_mem _ hd1))
    refine ⟨m1, h1, ?_⟩
    rw [h2, indexObjects_get?]
    simp [hkind]

/-- The documents all passing the type assertion, the entry of a collected kind is the
position of its last document. -/
theorem indexDocuments_last (objects : List String) (pre post : List Document) (index : Nat)
    (m : Option (GoMap Nat)) (k : String) (hko : k ∈ objects)
    (hpre : ∀ d ∈ pre, ∃ kind, d = Document.generalMap kind)
    (hpost : ∀ d ∈ post, ∃ kind, d = Document.generalMap kind)
    (hk : ∀ d ∈ post, d ≠ Document.generalMap (Dyn.str k)) :
    ∃ m1, indexDocuments objects (pre ++ Document.generalMap (Dyn.str k) :: post) index m = .ok m1 ∧
      GoMap.get? (m1.getD []) k = some (index + pre.length) := by
  induction pre generalizing index m with
  | nil =>
    simp only [List.nil_append, indexDocuments, indexDocument, List.length_nil, Nat.add_zero]
    obtain ⟨m1, h1, h2⟩ := indexDocuments_other objects post (index + 1)
      (objects.foldl
        (fun m object =>
          if Dyn.str k = Dyn.str object then some (GoMap.set (m.getD []) object index) else m)
        m) k hpost hk
    refine ⟨m1, h1, ?_⟩
    rw [h2, indexObjects_get?]
    simp [hko]
  | cons d r ih =>
    obtain ⟨kind, rfl⟩ := hpre d (List.mem_cons_self _ _)
    simp only [List.cons_append, indexDocuments, indexDocument, List.length_cons]
    obtain ⟨m1, h1, h2⟩ := ih (index + 1) _ (fun d1 hd1 => hpre d1 (List.mem_cons_of_mem _ hd1))
    refine ⟨m1, h1, ?_⟩
    rw [h2]
    congr 1
    omega

theorem split_at_index {α : Type} (l : List α) (i : Nat) (x : α) (h : l[i]? = some x) :
    ∃ pre post, l = pre ++ x :: post ∧ pre.length = i := by
  induction l generalizing i with
  | nil => simp at h
  | cons y r ih =>
    cases i with
    | zero =>
      simp only [List.getElem?_cons_zero, Option.some.injEq] at h
      subst h
      exact ⟨[], r, rfl, rfl⟩
    | succ j =>
      simp only [List.getElem?_cons_succ] at h
      obtain ⟨pre, post, hsplit, hlen⟩ := ih j h
      exact ⟨y :: pre, post, by rw [hsplit]; rfl, by simp [hlen]⟩

/-- Where every document of the stream passes the type assertion of the
indexer (each is a mapping with a key that is not a string), the last match
wins: if the document at position `i` is the last one of kind `k`, a kind of
the plan, then indexing returns and `kindToDocumentIndex[k] = i`. -/
theorem index_last_of_general_maps (h : Host) (fuel : Nat) (t : TestPlan)
    (docs : List Document) (k : String) (i : Nat)
    (hdec : decodesTo h t.KustomizeBuildYAMLDocuments docs)
    (hmap : ∀ d ∈ docs, ∃ kind, d = Document.generalMap kind)
    (hfuel : docs.length < fuel)
    (hk : k ∈ (collectKubernetesObjects (h.rangeOrder t.QueryToKubernetesObject)).1)
    (hi : docs[i]? = some (Document.generalMap (Dyn.str k)))
    (hlast : ∀ j, i < j → docs[j]? ≠ some (Document.generalMap (Dyn.str k))) :
    ∃ t1 m, mapKubernetesObjectsToKustomizeYAMLDocumentIndices h fuel t = .ok t1 ∧
      k ∈ t1.KubernetesObjects ∧
      t1.KubernetesObjectToKustomizeYAMLDocumentIndex = some m ∧
      GoMap.get? m k = some i ∧ documentIndex t1 k = i := by
  obtain ⟨pre, post, hsplit, hlen⟩ := split_at_index docs i _ hi
  have hpost : ∀ d ∈ post, d ≠ Document.generalMap (Dyn.str k) := by
    intro d hd hc
    obtain ⟨j, hj⟩ := List.mem_iff_getElem?.mp hd
    apply hlast (i + 1 + j) (by omega)
    rw [hsplit, List.getElem?_append_right (by omega)]
    rw [show i + 1 + j - pre.length = j + 1 by omega, List.getElem?_cons_succ, hj, hc]
  have hdocs := decodeDocuments_stream (h.Decode t.KustomizeBuildYAMLDocuments) docs 0 []
    fuel hfuel (by intro n; rw [Nat.zero_add]; exact hdec n)
  obtain ⟨m1, hm1, hget⟩ := indexDocuments_last
    (collectKubernetesObjects (h.rangeOrder t.QueryToKubernetesObject)).1 pre post 0
    t.KubernetesObjectToKustomizeYAMLDocumentIndex k hk
    (fun d hd => hmap d (by rw [hsplit]; exact List.mem_append_left _ hd))
    (fun d hd => hmap d (by
      rw [hsplit]
      exact List.mem_append_right _ (List.mem_cons_of_mem _ hd)))
    hpost
  rw [Nat.zero_add, hlen] at hget
  cases m1 with
  | none => simp [GoMap.get?] at hget
  | some m =>
    refine ⟨{ t with
        KubernetesObjectToKustomizeYAMLDocumentIndex := some m
        KubernetesObjects :=
          (collectKubernetesObjects (h.rangeOrder t.QueryToKubernetesObject)).1 },
      m, ?_, ?_, ?_, ?_, ?_⟩
    · unfold mapKubernetesObjectsToKustomizeYAMLDocumentIndices
      rw [hdocs]
      simp only [List.nil_append]
      rw [hsplit, hm1]
    · exact hk
    · rfl
    · simpa using hget
    · simp only [documentIndex, GoMap.get]
      simp only [Option.getD_some] at hget
      simp [hget]

/-- The four objects with a ConfigMap at indices 1 and 3, each given a key
that is not a string: `kindToDocumentIndex["ConfigMap"] = 3`. -/
theorem index_last_of_general_maps_example :
    ∃ t1 m, mapKubernetesObjectsToKustomizeYAMLDocumentIndices (streamHost twoKeyedConfigMaps)
        5 configMapPlan = .ok t1 ∧
      "ConfigMap" ∈ t1.KubernetesObjects ∧
      t1.KubernetesObjectToKustomizeYAMLDocumentIndex = some m ∧
      GoMap.get? m "ConfigMap" = some 3 ∧ documentIndex t1 "ConfigMap" = 3 :=
  index_last_of_general_maps (streamHost twoKeyedConfigMaps) 5 configMapPlan
    twoKeyedConfigMaps "ConfigMap" 3 (fun _ => rfl)
    (by
      intro d hd
      simp only [twoKeyedConfigMaps, List.mem_cons, List.mem_singleton, List.not_mem_nil,
        or_false] at hd
      rcases hd with rfl | rfl | rfl | rfl <;> exact ⟨_, rfl⟩)
    (by decide) (by decide) (by decide)
    (by
      intro j hj
      have hnone : twoKeyedConfigMaps[j]? = none :=
        List.getElem?_eq_none (by
          simp only [twoKeyedConfigMaps, List.length_cons, List.length_nil]
          omega)
      rw [hnone]
      exact fun hc => nomatch hc)

/-! ## C8: the query sequences -/

theorem register_spec (st : Resolver) (q k : String) (hinv : Registered st) :
    Registered (registerKubernetesObjectToQuery st q k) ∧
    ∀ k1 q1, q1 ∈ GoMap.get (registerKubernetesObjectToQuery st q k).plan.KubernetesObjectToQuery k1 ↔
      (q1 ∈ GoMap.get st.plan.KubernetesObjectToQuery k1 ∨ (k1 = k ∧ q1 = q)) := by
  unfold registerKubernetesObjectToQuery
  by_cases hreg : GoMap.get (GoMap.get st.registeredObjects k) q = true
  · have hmem := ((hinv k).2 q).mp hreg
    simp only [hreg, Bool.not_true, Bool.false_eq_true, if_false]
    refine ⟨hinv, ?_⟩
    intro k1 q1
    constructor
    · exact Or.inl
    · rintro (h1 | ⟨rfl, rfl⟩)
      · exact h1
      · exact hmem
  · have hnot : q ∉ GoMap.get st.plan.KubernetesObjectToQuery k :=
      fun hc => hreg (((hinv k).2 q).mpr hc)
    have hfalse : GoMap.get (GoMap.get st.registeredObjects k) q = false := by
      simpa using hreg
    simp only [hfalse, Bool.not_false, if_true]
    have hr0 : ∀ k1, GoMap.get
        (match GoMap.get? st.registeredObjects k with
          | none => GoMap.set st.registeredObjects k []
          | some _ => st.registeredObjects) k1 = GoMap.get st.registeredObjects k1 := by
      intro k1
      cases hg : GoMap.get? st.registeredObjects k with
      | none =>
        simp only [GoMap.get_set]
        by_cases hk : k = k1
        · subst hk
          simp [GoMap.get, hg]
          rfl
        · simp [hk]
      | some inner => rfl
    constructor
    · intro k1
      simp only [GoMap.get_set, hr0]
      by_cases hk : k = k1
      · subst hk
        simp only [if_true]
        refine ⟨?_, ?_⟩
        · refine List.nodup_append.mpr ⟨(hinv k).1, List.nodup_singleton q, ?_⟩
          intro a ha hb
          rw [List.mem_singleton] at hb
          subst hb
          exact hnot ha
        · intro q1
          rw [GoMap.get_set]
          by_cases hq : q = q1
          · subst hq
            simp
          · have hq1 : ¬ q1 = q := fun hc => hq hc.symm
            simp only [hq, if_false, List.mem_append, List.mem_singleton, hq1, or_false]
            exact (hinv k).2 q1
      · simp only [hk, if_false]
        exact hinv k1
    · intro k1 q1
      simp only [GoMap.get_set]
      by_cases hk : k = k1
      · subst hk
        simp
      · have hk1 : ¬ k1 = k := fun hc => hk hc.symm
        simp [hk, hk1]

theorem write_eq_register (st : Resolver) (d : Declaration) :
    ∃ st1, write st d = registerKubernetesObjectToQuery st1 d.query d.object ∧
      st1.plan.KubernetesObjectToQuery = st.plan.KubernetesObjectToQuery ∧
      st1.registeredObjects = st.registeredObjects := by
  obtain ⟨o, q, v⟩ := d
  cases v <;> exact ⟨_, rfl, rfl, rfl⟩

theorem write_spec (st : Resolver) (d : Declaration) (hinv : Registered st) :
    Registered (write st d) ∧
    ∀ k1 q1, q1 ∈ GoMap.get (write st d).plan.KubernetesObjectToQuery k1 ↔
      (q1 ∈ GoMap.get st.plan.KubernetesObjectToQuery k1 ∨ (k1 = d.object ∧ q1 = d.query)) := by
  obtain ⟨st1, hw, h1, h2⟩ := write_eq_register st d
  have hinv1 : Registered st1 := by
    unfold Registered
    rw [h1, h2]
    exact hinv
  rw [hw, ← h1]
  exact register_spec st1 d.query d.object hinv1

theorem foldl_write_spec (ds : List Declaration) (st : Resolver) (hinv : Registered st) :
    Registered (ds.foldl write st) ∧
    ∀ k1 q1, q1 ∈ GoMap.get (ds.foldl write st).plan.KubernetesObjectToQuery k1 ↔
      (q1 ∈ GoMap.get st.plan.KubernetesObjectToQuery k1 ∨
        ∃ d ∈ ds, d.object = k1 ∧ d.query = q1) := by
  induction ds generalizing st with
  | nil => simp [hinv]
  | cons d r ih =>
    obtain ⟨hw, hm⟩ := write_spec st d hinv
    obtain ⟨hr, hmr⟩ := ih (write st d) hw
    refine ⟨hr, ?_⟩
    intro k1 q1
    rw [List.foldl_cons, hmr, hm]
    simp only [List.mem_cons, exists_eq_or_imp]
    constructor
    · rintro ((h1 | ⟨h1, h2⟩) | h1)
      · exact Or.inl h1
      · exact Or.inr (Or.inl ⟨h1.symm, h2.symm⟩)
      · exact Or.inr (Or.inr h1)
    · rintro (h1 | ⟨h1, h2⟩ | h1)
      · exact Or.inl (Or.inl h1)
      · exact Or.inl (Or.inr ⟨h1.symm, h2.symm⟩)
      · exact Or.inr h1

theorem initResolver_registered (name overlay : String) (bytes : Bytes) :
    Registered (initResolver name overlay bytes) := by
  intro k
  refine ⟨List.nodup_nil, ?_⟩
  intro q
  constructor
  · intro hc
    exact absurd hc Bool.false_ne_true
  · intro hc
    exact absurd hc (List.not_mem_nil q)

/-- C8: in the plan `CreateTestPlan` returns, no query sequence
`KubernetesObjectToQuery[k]` holds a query twice; it holds exactly the queries
declared under `k` in the layers visited; and the plan holds for each query
the validation kind and expectation of the declaration visited last. -/
theorem CreateTestPlan_dedup (h : Host) (a : Artifact) (overlay : String)
    (commonValidations : GoMap KubernetesObjectValidations) (bytes : Bytes)
    (hb : h.KustomizeBuild a.Name overlay = .ok bytes) :
    ∃ plan, CreateTestPlan h a overlay commonValidations = .ok plan ∧
      (∀ k, (GoMap.get plan.KubernetesObjectToQuery k).Nodup) ∧
      (∀ k q, q ∈ GoMap.get plan.KubernetesObjectToQuery k ↔
        ∃ d ∈ planDeclarations commonValidations a overlay, d.object = k ∧ d.query = q) ∧
      (∀ pre d post, planDeclarations commonValidations a overlay = pre ++ d :: post →
        (∀ d1 ∈ post, d1.query ≠ d.query) → plan.holds d.query d.value) := by
  refine ⟨_, CreateTestPlan_eq h a overlay commonValidations bytes hb, ?_, ?_, ?_⟩
  · intro k
    exact ((foldl_write_spec _ _ (initResolver_registered a.Name overlay bytes)).1 k).1
  · intro k q
    rw [(foldl_write_spec _ _ (initResolver_registered a.Name overlay bytes)).2 k q]
    constructor
    · rintro (hc | hc)
      · exact absurd hc (List.not_mem_nil q)
      · exact hc
    · exact Or.inr
  · intro pre d post hsplit hpost
    rw [hsplit]
    exact holds_last pre post d _ hpost

/-- Witness of C8: the replicas query is declared for Deployments in the
shared rules and again in overlay `prod`; the sequence holds it once. -/
theorem CreateTestPlan_dedup_witness :
    ∃ plan, CreateTestPlan quietHost webArtifact "prod" sharedReplicas = .ok plan ∧
      GoMap.get plan.KubernetesObjectToQuery "Deployment" = ["select(.spec.replicas)"] ∧
      (GoMap.get plan.KubernetesObjectToQuery "Deployment").Nodup ∧
      plan.holds "select(.spec.replicas)" (.defined false) := by
  obtain ⟨plan, hplan, hnodup, -, hlast⟩ :=
    CreateTestPlan_dedup quietHost webArtifact "prod" sharedReplicas [] rfl
  refine ⟨plan, hplan, ?_, hnodup _, ?_⟩
  · have hp := Except.ok.inj hplan
    subst hp
    decide
  · exact hlast
      [{ object := "Deployment", query := "select(.spec.replicas)", value := .defined true }]
      { object := "Deployment", query := "select(.spec.replicas)", value := .defined false }
      [] rfl (fun _ hd => nomatch hd)

/-! ## C9: the object kinds of a plan -/

theorem collect_spec (entries : GoMap String) (s : List String × GoMap Bool)
    (hs : s.1.Nodup ∧ ∀ k, GoMap.get s.2 k = true ↔ k ∈ s.1) :
    let r := entries.foldl
      (fun s e =>
        if !(GoMap.get s.2 e.2) then (s.1 ++ [e.2], GoMap.set s.2 e.2 true) else s) s
    (r.1.Nodup ∧ ∀ k, GoMap.get r.2 k = true ↔ k ∈ r.1) ∧
    ∀ k, k ∈ r.1 ↔ (k ∈ s.1 ∨ ∃ e ∈ entries, e.2 = k) := by
  induction entries generalizing s with
  | nil => simp [hs]
  | cons e r ih =>
    simp only [List.foldl_cons]
    by_cases hreg : GoMap.get s.2 e.2 = true
    · have hmem := (hs.2 e.2).mp hreg
      simp only [hreg, Bool.not_true, Bool.false_eq_true, if_false]
      obtain ⟨h1, h2⟩ := ih s hs
      refine ⟨h1, ?_⟩
      intro k
      rw [h2 k]
      simp only [List.mem_cons, exists_eq_or_imp]
      constructor
      · rintro (hk | hk)
        · exact Or.inl hk
        · exact Or.inr (Or.inr hk)
      · rintro (hk | hk | hk)
        · exact Or.inl hk
        · exact Or.inl (hk ▸ hmem)
        · exact Or.inr hk
    · have hnot : e.2 ∉ s.1 := fun hc => hreg ((hs.2 e.2).mpr hc)
      have hfalse : GoMap.get s.2 e.2 = false := by simpa using hreg
      simp only [hfalse, Bool.not_false, if_true]
      obtain ⟨h1, h2⟩ := ih (s.1 ++ [e.2], GoMap.set s.2 e.2 true) (by
        refine ⟨?_, ?_⟩
        · refine List.nodup_append.mpr ⟨hs.1, List.nodup_singleton _, ?_⟩
          intro x hx hy
          rw [List.mem_singleton] at hy
          subst hy
          exact hnot hx
        · intro k
          simp only [GoMap.get_set, List.mem_append, List.mem_singleton]
          by_cases hk : e.2 = k
          · simp [hk]
          · have hk1 : ¬ k = e.2 := fun hc => hk hc.symm
            simp only [hk, if_false, hk1, or_false]
            exact hs.2 k)
      refine ⟨h1, ?_⟩
      intro k
      rw [h2 k]
      simp only [List.mem_append, List.mem_cons, List.not_mem_nil, or_false, exists_eq_or_imp]
      constructor
      · rintro ((hk | hk) | hk)
        · exact Or.inl hk
        · exact Or.inr (Or.inl hk.symm)
        · exact Or.inr (Or.inr hk)
      · rintro (hk | hk | hk)
        · exact Or.inl (Or.inl hk)
        · exact Or.inl (Or.inr hk.symm)
        · exact Or.inr hk

theorem collectKubernetesObjects_spec (entries : GoMap String) :
    (collectKubernetesObjects entries).1.Nodup ∧
    ∀ k, k ∈ (collectKubernetesObjects entries).1 ↔ ∃ e ∈ entries, e.2 = k := by
  have hs : (([], []) : List String × GoMap Bool).1.Nodup ∧
      ∀ k, GoMap.get (([], []) : List String × GoMap Bool).2 k = true ↔
        k ∈ (([], []) : List String × GoMap Bool).1 := by
    refine ⟨List.nodup_nil, ?_⟩
    intro k
    constructor
    · intro hc
      exact absurd hc Bool.false_ne_true
    · intro hc
      exact absurd hc (List.not_mem_nil k)
  obtain ⟨h1, h2⟩ := collect_spec entries ([], []) hs
  refine ⟨h1.1, ?_⟩
  intro k
  have h3 := h2 k
  simp only [List.not_mem_nil, false_or] at h3
  exact h3

theorem GoMap.keys_set {α : Type} (m : GoMap α) (k : String) (v : α) :
    (GoMap.set m k v).map Prod.fst =
      if k ∈ m.map Prod.fst then m.map Prod.fst else m.map Prod.fst ++ [k] := by
  induction m with
  | nil => simp [GoMap.set]
  | cons e r ih =>
    obtain ⟨k0, v0⟩ := e
    by_cases h0 : k0 = k
    · subst h0
      simp [GoMap.set]
    · have hne : ¬ k = k0 := fun hc => h0 hc.symm
      simp only [GoMap.set, h0, if_false, List.map_cons, ih, List.mem_cons, hne, false_or]
      by_cases hk : k ∈ r.map Prod.fst
      · simp only [hk, if_true]
      · simp only [hk, if_false, List.cons_append]

theorem GoMap.nodup_keys_set {α : Type} (m : GoMap α) (k : String) (v : α)
    (hm : (m.map Prod.fst).Nodup) : ((GoMap.set m k v).map Prod.fst).Nodup := by
  rw [GoMap.keys_set]
  by_cases hk : k ∈ m.map Prod.fst
  · simpa [hk] using hm
  · simp only [hk, if_false]
    refine List.nodup_append.mpr ⟨hm, List.nodup_singleton _, ?_⟩
    intro x hx hy
    rw [List.mem_singleton] at hy
    subst hy
    exact hk hx

theorem GoMap.get?_of_mem {α : Type} (m : GoMap α) (k : String) (v : α)
    (hm : (m.map Prod.fst).Nodup) (hmem : (k, v) ∈ m) : GoMap.get? m k = some v := by
  induction m with
  | nil => cases hmem
  | cons e r ih =>
    obtain ⟨k0, v0⟩ := e
    simp only [List.map_cons, List.nodup_cons] at hm
    rcases List.mem_cons.mp hmem with heq | hr
    · cases heq
      simp [GoMap.get?]
    · have hne : k0 ≠ k := by
        intro hc
        subst hc
        exact hm.1 (List.mem_map_of_mem Prod.fst hr)
      simp only [GoMap.get?, hne, if_false]
      exact ih hm.2 hr

theorem GoMap.mem_of_get? {α : Type} (m : GoMap α) (k : String) (v : α)
    (hget : GoMap.get? m k = some v) : (k, v) ∈ m := by
  induction m with
  | nil => simp [GoMap.get?] at hget
  | cons e r ih =>
    obtain ⟨k0, v0⟩ := e
    by_cases h0 : k0 = k
    · subst h0
      simp only [GoMap.get?, if_true, Option.some.injEq] at hget
      subst hget
      exact List.mem_cons_self _ _
    · simp only [GoMap.get?, h0, if_false] at hget
      exact List.mem_cons_of_mem _ (ih hget)

theorem kubernetesObject_foldl_ne (ds : List Declaration) (st : Resolver) (q : String)
    (hq : ∀ d ∈ ds, d.query ≠ q) :
    GoMap.get? (ds.foldl write st).plan.QueryToKubernetesObject q =
      GoMap.get? st.plan.QueryToKubernetesObject q := by
  induction ds generalizing st with
  | nil => rfl
  | cons d r ih =>
    rw [List.foldl_cons, ih _ (fun d1 h1 => hq d1 (List.mem_cons_of_mem _ h1)),
      write_kubernetesObject, GoMap.get?_set_ne _ _ (hq d (List.mem_cons_self _ _))]

theorem kubernetesObject_last (pre post : List Declaration) (d : Declaration) (st : Resolver)
    (hpost : ∀ d1 ∈ post, d1.query ≠ d.query) :
    GoMap.get? ((pre ++ d :: post).foldl write st).plan.QueryToKubernetesObject d.query =
      some d.object := by
  rw [List.foldl_append, List.foldl_cons, kubernetesObject_foldl_ne _ _ _ hpost,
    write_kubernetesObject, GoMap.get?_set_self]

theorem kubernetesObject_keys (ds : List Declaration) (st : Resolver)
    (hst : (st.plan.QueryToKubernetesObject.map Prod.fst).Nodup) :
    ((ds.foldl write st).plan.QueryToKubernetesObject.map Prod.fst).Nodup := by
  induction ds generalizing st with
  | nil => exact hst
  | cons d r ih =>
    rw [List.foldl_cons]
    apply ih
    rw [write_kubernetesObject]
    exact GoMap.nodup_keys_set _ _ _ hst

/-- The object kinds the indexer collects from a resolved plan are the kinds of
the declarations that are the last one of their query. -/
theorem collected_iff_last (h : Host) (ds : List Declaration) (name overlay : String)
    (bytes : Bytes) (k : String) (hperm : ∀ m, (h.rangeOrder m).Perm m) :
    k ∈ (collectKubernetesObjects (h.rangeOrder
        (ds.foldl write (initResolver name overlay bytes)).plan.QueryToKubernetesObject)).1 ↔
      ∃ pre d post, ds = pre ++ d :: post ∧ d.object = k ∧ ∀ d1 ∈ post, d1.query ≠ d.query := by
  rw [(collectKubernetesObjects_spec _).2 k]
  constructor
  · rintro ⟨⟨q, k1⟩, he, rfl⟩
    have he1 := (hperm _).mem_iff.mp he
    have hget := GoMap.get?_of_mem _ q k1
      (kubernetesObject_keys ds (initResolver name overlay bytes) List.nodup_nil) he1
    have hment : mentions ds q := by
      by_contra hc
      rw [kubernetesObject_foldl_ne ds _ q ((not_mentions_iff ds q).mp hc)] at hget
      simp [initResolver, GoMap.get?] at hget
    obtain ⟨pre, d, post, hsplit, hq, hpost⟩ := split_last ds q hment
    subst hq
    have hlast := kubernetesObject_last pre post d (initResolver name overlay bytes) hpost
    rw [← hsplit, hget] at hlast
    exact ⟨pre, d, post, hsplit, (Option.some.inj hlast).symm, hpost⟩
  · rintro ⟨pre, d, post, hsplit, rfl, hpost⟩
    have hlast := kubernetesObject_last pre post d (initResolver name overlay bytes) hpost
    rw [← hsplit] at hlast
    exact ⟨(d.query, d.object), (hperm _).mem_iff.mpr (GoMap.mem_of_get? _ _ _ hlast), rfl⟩

theorem indexer_objects (h : Host) (fuel : Nat) (t t1 : TestPlan)
    (hidx : mapKubernetesObjectsToKustomizeYAMLDocumentIndices h fuel t = .ok t1) :
    t1.KubernetesObjects =
      (collectKubernetesObjects (h.rangeOrder t.QueryToKubernetesObject)).1 ∧
    t1.KubernetesObjectToQuery = t.KubernetesObjectToQuery := by
  unfold mapKubernetesObjectsToKustomizeYAMLDocumentIndices at hidx
  cases hdoc : decodeDocuments (h.Decode t.KustomizeBuildYAMLDocuments) fuel 0 [] with
  | error e =>
    rw [hdoc] at hidx
    cases hidx
  | ok documents =>
    rw [hdoc] at hidx
    simp only at hidx
    cases hm : indexDocuments
        (collectKubernetesObjects (h.rangeOrder t.QueryToKubernetesObject)).1 documents 0
        t.KubernetesObjectToKustomizeYAMLDocumentIndex with
    | error e =>
      rw [hm] at hidx
      cases hidx
    | ok m =>
      rw [hm] at hidx
      cases hidx
      exact ⟨rfl, rfl⟩

/-- Where no query string is declared under two object kinds, the object
kinds of the indexed plan are, once each, the kinds that have a rule in the
layers visited, and every registered (kind, query) pair is among the pairs
`Execute` evaluates. -/
theorem objectKinds_complete_of_single_kind (h : Host) (fuel : Nat) (a : Artifact)
    (overlay : String) (commonValidations : GoMap KubernetesObjectValidations)
    (plan t1 : TestPlan) (hperm : ∀ m, (h.rangeOrder m).Perm m)
    (hplan : CreateTestPlan h a overlay commonValidations = .ok plan)
    (hidx : mapKubernetesObjectsToKustomizeYAMLDocumentIndices h fuel plan = .ok t1)
    (hsingle : ∀ d1 ∈ planDeclarations commonValidations a overlay,
      ∀ d2 ∈ planDeclarations commonValidations a overlay,
      d1.query = d2.query → d1.object = d2.object) :
    t1.KubernetesObjects.Nodup ∧
    (∀ k, k ∈ t1.KubernetesObjects ↔
      ∃ d ∈ planDeclarations commonValidations a overlay, d.object = k) ∧
    (∀ k q, q ∈ GoMap.get t1.KubernetesObjectToQuery k → (k, q) ∈ plannedPairs t1) := by
  have hbuild : ∃ bytes, h.KustomizeBuild a.Name overlay = .ok bytes := by
    unfold CreateTestPlan at hplan
    cases hb : h.KustomizeBuild a.Name overlay with
    | error e => rw [hb] at hplan; cases hplan
    | ok bytes => exact ⟨bytes, rfl⟩
  obtain ⟨bytes, hb⟩ := hbuild
  rw [CreateTestPlan_eq h a overlay commonValidations bytes hb] at hplan
  have hp := Except.ok.inj hplan
  obtain ⟨hobj, hq⟩ := indexer_objects h fuel plan t1 hidx
  have hkinds : ∀ k, k ∈ t1.KubernetesObjects ↔
      ∃ d ∈ planDeclarations commonValidations a overlay, d.object = k := by
    intro k
    rw [hobj, ← hp, collected_iff_last h _ a.Name overlay bytes k hperm]
    constructor
    · rintro ⟨pre, d, post, hsplit, hk, -⟩
      exact ⟨d, by rw [hsplit]; exact List.mem_append_right _ (List.mem_cons_self _ _), hk⟩
    · rintro ⟨d, hd, hk⟩
      obtain ⟨pre, d0, post, hsplit, hq0, hpost⟩ :=
        split_last _ d.query ⟨d, hd, rfl⟩
      have hd0 : d0 ∈ planDeclarations commonValidations a overlay := by
        rw [hsplit]
        exact List.mem_append_right _ (List.mem_cons_self _ _)
      refine ⟨pre, d0, post, hsplit, ?_, ?_⟩
      · rw [hsingle d0 hd0 d hd hq0, hk]
      · intro d1 hd1
        rw [hq0]
        exact hpost d1 hd1
  refine ⟨?_, hkinds, ?_⟩
  · rw [hobj]
    exact (collectKubernetesObjects_spec _).1
  · intro k q hmem
    have hmem1 := hmem
    rw [hq, ← hp, (foldl_write_spec _ _ (initResolver_registered a.Name overlay bytes)).2 k q]
      at hmem1
    rcases hmem1 with hc | ⟨d, hd, hk, -⟩
    · exact absurd hc (List.not_mem_nil q)
    · unfold plannedPairs
      rw [List.mem_flatMap]
      exact ⟨k, (hkinds k).mpr ⟨d, hd, hk⟩, List.mem_map.mpr ⟨q, hmem, rfl⟩⟩

/-- C9 fails on the code: the shared rules declare `metadata.name` for
Services and the artifact base declares the same query for Deployments.  After
resolution and indexing the object kinds are just `Deployment`: the kind
`Service` has a rule and a registered query, yet it is not an object kind of
the plan and its (kind, query) pair is not among the pairs `Execute`
evaluates. -/
theorem objectKinds_incomplete :
    ∃ plan t1, CreateTestPlan quietHost namedDeployment "base" sharedName = .ok plan ∧
      mapKubernetesObjectsToKustomizeYAMLDocumentIndices quietHost 1 plan = .ok t1 ∧
      (∃ d ∈ planDeclarations sharedName namedDeployment "base", d.object = "Service") ∧
      t1.KubernetesObjects = ["Deployment"] ∧
      "Service" ∉ t1.KubernetesObjects ∧
      GoMap.get t1.KubernetesObjectToQuery "Service" = ["metadata.name"] ∧
      plannedPairs t1 = [("Deployment", "metadata.name")] := by
  refine ⟨_, _, rfl, rfl, ?_, ?_, ?_, ?_, ?_⟩ <;> decide

/-! ## C10: two resolutions of one manifest -/

theorem entry_write (st : Resolver) (d : Declaration) (q : String) :
    (write st d).plan.entry q =
      if d.query = q then
        (some d.value.kind,
         (match d.value with
          | .defined b => some b
          | _ => GoMap.get? st.plan.QueryToBoolExpectation q),
         (match d.value with
          | .integer n => some n
          | _ => GoMap.get? st.plan.QueryToIntegerExpectation q),
         (match d.value with
          | .string s => some s
          | .partials s => some s
          | _ => GoMap.get? st.plan.QueryToStringExpectation q),
         some d.object)
      else st.plan.entry q := by
  unfold TestPlan.entry
  rw [write_validationType, write_boolExpectation, write_integerExpectation,
    write_stringExpectation, write_kubernetesObject]
  obtain ⟨o, q0, v⟩ := d
  by_cases hq : q0 = q
  · subst hq
    cases v <;> simp [GoMap.get?_set_self]
  · cases v <;> simp [hq, GoMap.get?_set_ne _ _ hq]

theorem entry_write_congr (st1 st2 : Resolver) (d : Declaration) (q : String)
    (he : st1.plan.entry q = st2.plan.entry q) :
    (write st1 d).plan.entry q = (write st2 d).plan.entry q := by
  rw [entry_write, entry_write]
  by_cases hq : d.query = q
  · simp only [hq, if_true]
    unfold TestPlan.entry at he
    simp only [Prod.mk.injEq] at he
    obtain ⟨-, h2, h3, h4, -⟩ := he
    rw [h2, h3, h4]
  · simp only [hq, if_false]
    exact he

theorem entry_foldl_congr (ds : List Declaration) (st1 st2 : Resolver) (q : String)
    (he : st1.plan.entry q = st2.plan.entry q) :
    (ds.foldl write st1).plan.entry q = (ds.foldl write st2).plan.entry q := by
  induction ds generalizing st1 st2 with
  | nil => exact he
  | cons d r ih =>
    rw [List.foldl_cons, List.foldl_cons]
    exact ih _ _ (entry_write_congr st1 st2 d q he)

/-- What a plan records under a query depends only on the declarations of
that query, in their order. -/
theorem entry_foldl_filter (ds : List Declaration) (st : Resolver) (q : String) :
    (ds.foldl write st).plan.entry q =
      ((ds.filter (fun d => decide (d.query = q))).foldl write st).plan.entry q := by
  induction ds generalizing st with
  | nil => rfl
  | cons d r ih =>
    by_cases hq : d.query = q
    · rw [List.filter_cons_of_pos (by simpa using hq), List.foldl_cons, List.foldl_cons]
      exact ih _
    · rw [List.filter_cons_of_neg (by simpa using hq), List.foldl_cons, ih]
      apply entry_foldl_congr
      rw [entry_write, if_neg hq]

theorem filter_eq_of_perm (l1 l2 : List Declaration) (q : String) (hp : l1.Perm l2)
    (h1 : atMostOnce l1 q) :
    l1.filter (fun d => decide (d.query = q)) = l2.filter (fun d => decide (d.query = q)) := by
  have hpf := hp.filter (fun d => decide (d.query = q))
  unfold atMostOnce at h1
  rcases hl : l1.filter (fun d => decide (d.query = q)) with _ | ⟨x, _ | ⟨y, r⟩⟩
  · rw [hl] at hpf
    exact hl.trans (List.nil_perm.mp hpf).symm
  · rw [hl] at hpf
    exact hl.trans (List.singleton_perm.mp hpf)
  · rw [hl] at h1
    simp at h1

/-- C10, amended: two resolutions of the same (artifact, overlay) against the
same shared rules, each enumerating the rule mappings in an order of its own
(so that each layer yields the same rules, permuted), return plans with the
same queries under every object kind, and with the same validation kind,
expectations and object kind for every query that each layer declares at most
once.  The order of the query sequences follows the enumeration. -/
theorem CreateTestPlan_deterministic (h : Host) (a a2 : Artifact) (overlay : String)
    (commonValidations commonValidations2 : GoMap KubernetesObjectValidations)
    (bytes : Bytes)
    (hname : a2.Name = a.Name)
    (hb : h.KustomizeBuild a.Name overlay = .ok bytes)
    (hc : (layerDeclarations commonValidations).Perm (layerDeclarations commonValidations2))
    (hba : (layerDeclarations a.Base).Perm (layerDeclarations a2.Base))
    (ho : (overlayDeclarations a.Overlays overlay).Perm
      (overlayDeclarations a2.Overlays overlay)) :
    ∃ plan plan2,
      CreateTestPlan h a overlay commonValidations = .ok plan ∧
      CreateTestPlan h a2 overlay commonValidations2 = .ok plan2 ∧
      (∀ k, (GoMap.get plan.KubernetesObjectToQuery k).Perm
        (GoMap.get plan2.KubernetesObjectToQuery k)) ∧
      (∀ q, atMostOnce (layerDeclarations commonValidations) q →
        atMostOnce (layerDeclarations a.Base) q →
        atMostOnce (overlayDeclarations a.Overlays overlay) q →
        plan.entry q = plan2.entry q) := by
  have hb2 : h.KustomizeBuild a2.Name overlay = .ok bytes := by rw [hname]; exact hb
  refine ⟨_, _, CreateTestPlan_eq h a overlay commonValidations bytes hb,
    CreateTestPlan_eq h a2 overlay commonValidations2 bytes hb2, ?_, ?_⟩
  · intro k
    have hperm : (planDeclarations commonValidations a overlay).Perm
        (planDeclarations commonValidations2 a2 overlay) := by
      unfold planDeclarations
      by_cases hov : overlay = "base"
      · simp only [hov, if_true, List.append_nil]
        exact hc.append hba
      · simp only [hov, if_false]
        exact (hc.append hba).append ho
    have s1 := foldl_write_spec (planDeclarations commonValidations a overlay) _
      (initResolver_registered a.Name overlay bytes)
    have s2 := foldl_write_spec (planDeclarations commonValidations2 a2 overlay) _
      (initResolver_registered a2.Name overlay bytes)
    rw [List.perm_ext_iff_of_nodup (s1.1 k).1 (s2.1 k).1]
    intro q
    rw [s1.2 k q, s2.2 k q]
    constructor
    · rintro (hq | ⟨d, hd, hk⟩)
      · exact absurd hq (List.not_mem_nil q)
      · exact Or.inr ⟨d, hperm.mem_iff.mp hd, hk⟩
    · rintro (hq | ⟨d, hd, hk⟩)
      · exact absurd hq (List.not_mem_nil q)
      · exact Or.inr ⟨d, hperm.mem_iff.mpr hd, hk⟩
  · intro q h1 h2 h3
    rw [entry_foldl_filter, entry_foldl_filter (planDeclarations commonValidations2 a2 overlay),
      hname]
    have hfilter : (planDeclarations commonValidations a overlay).filter
          (fun d => decide (d.query = q)) =
        (planDeclarations commonValidations2 a2 overlay).filter
          (fun d => decide (d.query = q)) := by
      unfold planDeclarations
      by_cases hov : overlay = "base"
      · simp only [hov, if_true, List.append_nil, List.filter_append]
        rw [filter_eq_of_perm _ _ q hc h1, filter_eq_of_perm _ _ q hba h2]
      · simp only [hov, if_false, List.filter_append]
        rw [filter_eq_of_perm _ _ q hc h1, filter_eq_of_perm _ _ q hba h2,
          filter_eq_of_perm _ _ q ho h3]
    rw [hfilter]

/-- Witness of C10: the shared rules enumerated forwards and backwards. -/
theorem CreateTestPlan_deterministic_witness :
    ∃ plan plan2,
      CreateTestPlan quietHost bareArtifact "base" sharedForward = .ok plan ∧
      CreateTestPlan quietHost bareArtifact "base" sharedBackward = .ok plan2 ∧
      (∀ k, (GoMap.get plan.KubernetesObjectToQuery k).Perm
        (GoMap.get plan2.KubernetesObjectToQuery k)) ∧
      plan.entry "a" = plan2.entry "a" := by
  obtain ⟨plan, plan2, h1, h2, h3, h4⟩ :=
    CreateTestPlan_deterministic quietHost bareArtifact bareArtifact "base" sharedForward
      sharedBackward [] rfl rfl (by decide) (by decide) (by decide)
  exact ⟨plan, plan2, h1, h2, h3, h4 "a" (by decide) (by decide) (by decide)⟩

/-- C10 as stated fails: the same shared rules, with the presence mapping of
Deployments enumerated once as `a`, `b` and once as `b`, `a`, resolve to plans
whose query sequences for Deployments are in different orders; the plans
differ. -/
theorem CreateTestPlan_deterministic_counterexample :
    ∃ plan plan2,
      CreateTestPlan quietHost bareArtifact "base" sharedForward = .ok plan ∧
      CreateTestPlan quietHost bareArtifact "base" sharedBackward = .ok plan2 ∧
      (layerDeclarations sharedForward).Perm (layerDeclarations sharedBackward) ∧
      GoMap.get plan.KubernetesObjectToQuery "Deployment" = ["a", "b"] ∧
      GoMap.get plan2.KubernetesObjectToQuery "Deployment" = ["b", "a"] ∧
      plan ≠ plan2 := by
  refine ⟨_, _, rfl, rfl, ?_, ?_, ?_, ?_⟩ <;> decide

/-! ## C11, C12, C13: the suite -/

theorem executesCleanly_iff {h : Host} {fuel : Nat} {p : TestPlan} :
    executesCleanly h fuel p = true ↔ ∃ r, Execute h fuel p = .ok r ∧ r.err = none := by
  unfold executesCleanly
  cases Execute h fuel p with
  | error a => simp
  | ok r => simp [Option.isNone_iff_eq_none]

theorem executePlans_append (h : Host) (fuel : Nat) (failFast : Bool) (p1 p2 : List TestPlan)
    (s : Suite) :
    executePlans h fuel failFast (p1 ++ p2) s =
      match executePlans h fuel failFast p1 s with
      | (s1, some e) => (s1, some e)
      | (s1, none) => executePlans h fuel failFast p2 s1 := by
  induction p1 generalizing s with
  | nil => rfl
  | cons p r ih =>
    simp only [List.cons_append, executePlans]
    cases Execute h fuel p with
    | error a => rfl
    | ok o =>
      simp only
      cases o.err with
      | some err => rfl
      | none =>
        simp only
        by_cases hp : o.pass = true
        · simp only [hp, Bool.not_true, Bool.false_eq_true, if_false]
          exact ih _
        · have hf : o.pass = false := by simpa using hp
          simp only [hf, Bool.not_false, if_true]
          cases failFast with
          | true => rfl
          | false => exact ih _

/-- The loop over the plans when no plan has an execution error and fail-fast
is off: every plan is executed and filed by its outcome. -/
theorem executePlans_full (h : Host) (fuel : Nat) (ps : List TestPlan) (s : Suite)
    (hclean : ∀ p ∈ ps, executesCleanly h fuel p = true) :
    executePlans h fuel false ps s =
      ({ suitePass := s.suitePass && ps.all (planPasses h fuel)
         failedPlans := s.failedPlans ++
           (ps.filter (fun p => !planPasses h fuel p)).map planIdentifier
         passedPlans := s.passedPlans ++ (ps.filter (planPasses h fuel)).map planIdentifier
         executed := s.executed ++ ps
         calls := s.calls ++ ps.flatMap (callsOf h fuel) }, none) := by
  induction ps generalizing s with
  | nil => simp [executePlans]
  | cons p r ih =>
    obtain ⟨o, ho, herr⟩ := executesCleanly_iff.mp (hclean p (List.mem_cons_self _ _))
    have hr := fun s1 => ih s1 (fun p1 hp1 => hclean p1 (List.mem_cons_of_mem _ hp1))
    have hpass : planPasses h fuel p = o.pass := by simp [planPasses, ho]
    have hcalls : callsOf h fuel p = o.tally.calls := by simp [callsOf, ho]
    simp only [executePlans, ho, herr]
    by_cases hp : o.pass = true
    · simp only [hp, Bool.not_true, Bool.false_eq_true, if_false, hr]
      simp [hpass, hp, hcalls, List.append_assoc]
    · have hf : o.pass = false := by simpa using hp
      simp only [hf, Bool.not_false, if_true, Bool.false_eq_true, if_false, hr]
      simp [hpass, hf, hcalls, List.append_assoc]

/-- The loop over the plans when every plan passes: the fail-fast flag plays
no part. -/
theorem executePlans_passing (h : Host) (fuel : Nat) (failFast : Bool) (ps : List TestPlan)
    (s : Suite) (hclean : ∀ p ∈ ps, executesCleanly h fuel p = true)
    (hpass : ∀ p ∈ ps, planPasses h fuel p = true) :
    executePlans h fuel failFast ps s =
      ({ s with
         passedPlans := s.passedPlans ++ ps.map planIdentifier
         executed := s.executed ++ ps
         calls := s.calls ++ ps.flatMap (callsOf h fuel) }, none) := by
  induction ps generalizing s with
  | nil => simp [executePlans]
  | cons p r ih =>
    obtain ⟨o, ho, herr⟩ := executesCleanly_iff.mp (hclean p (List.mem_cons_self _ _))
    have hp : o.pass = true := by
      have := hpass p (List.mem_cons_self _ _)
      simpa [planPasses, ho] using this
    have hcalls : callsOf h fuel p = o.tally.calls := by simp [callsOf, ho]
    simp only [executePlans, ho, herr, hp, Bool.not_true, Bool.false_eq_true, if_false]
    rw [ih _ (fun p1 hp1 => hclean p1 (List.mem_cons_of_mem _ hp1))
      (fun p1 hp1 => hpass p1 (List.mem_cons_of_mem _ hp1))]
    simp [hcalls, List.append_assoc]

/-- The loop over the plans with fail-fast on, at the first failing plan. -/
theorem executePlans_failFast (h : Host) (fuel : Nat) (pre post : List TestPlan)
    (p : TestPlan) (s : Suite)
    (hclean : ∀ p1 ∈ pre, executesCleanly h fuel p1 = true) (hp : executesCleanly h fuel p = true)
    (hpass : ∀ p1 ∈ pre, planPasses h fuel p1 = true) (hfail : planPasses h fuel p = false) :
    executePlans h fuel true (pre ++ p :: post) s =
      ({ s with
         passedPlans := s.passedPlans ++ pre.map planIdentifier
         executed := s.executed ++ (pre ++ [p])
         calls := s.calls ++ (pre ++ [p]).flatMap (callsOf h fuel) },
       some .ErrManifestValidationsFailed) := by
  rw [executePlans_append, executePlans_passing h fuel true pre s hclean hpass]
  obtain ⟨o, ho, herr⟩ := executesCleanly_iff.mp hp
  have hf : o.pass = false := by simpa [planPasses, ho] using hfail
  have hcalls : callsOf h fuel p = o.tally.calls := by simp [callsOf, ho]
  simp only [executePlans, ho, herr, hf, Bool.not_false, if_true]
  simp [hcalls, List.append_assoc]

theorem executeArtifacts_eq (h : Host) (fuel : Nat) (failFast : Bool)
    (commonValidations : GoMap KubernetesObjectValidations) (artifacts : List Artifact)
    (s : Suite) (hrender : ∀ a ∈ artifacts, rendersCleanly h commonValidations a = true) :
    executeArtifacts h fuel failFast commonValidations artifacts s =
      executePlans h fuel failFast (artifacts.flatMap (testPlansOf h commonValidations)) s := by
  induction artifacts generalizing s with
  | nil => rfl
  | cons a r ih =>
    have ha := hrender a (List.mem_cons_self _ _)
    simp only [executeArtifacts, List.flatMap_cons, executePlans_append, testPlansOf]
    unfold rendersCleanly at ha
    cases hc : CreateTestPlans h a commonValidations with
    | error e =>
      rw [hc] at ha
      cases ha
    | ok a1 =>
      simp only
      rcases executePlans h fuel failFast a1.TestPlans s with ⟨s1, _ | e⟩
      · exact ih _ (fun a2 ha2 => hrender a2 (List.mem_cons_of_mem _ ha2))
      · rfl

theorem Action_eq (h : Host) (fuel : Nat) (failFast : Bool) (validationsManifest : Manifest)
    (hrender : ∀ a ∈ sortArtifacts (validationsManifest.Artifacts.map Prod.snd),
      rendersCleanly h validationsManifest.Common a = true) :
    Action h fuel failFast validationsManifest =
      match executePlans h fuel failFast (suitePlans h validationsManifest) initSuite with
      | (s, some e) => (s, e)
      | (s, none) =>
        if s.suitePass = false then (s, .ErrManifestValidationsFailed) else (s, .success) := by
  unfold Action suitePlans
  simp only
  rw [executeArtifacts_eq h fuel failFast validationsManifest.Common _ initSuite hrender]

/-- C11: with fail-fast off and no execution error, the action executes every
plan of every artifact, ends in `ErrManifestValidationsFailed` iff at least
one plan failed (and in success iff none did), and files the identifier of
each plan in the passed list if its outcome is pass and in the failed list if
it is fail. -/
theorem Action_full_run (h : Host) (fuel : Nat) (validationsManifest : Manifest)
    (hrender : ∀ a ∈ sortArtifacts (validationsManifest.Artifacts.map Prod.snd),
      rendersCleanly h validationsManifest.Common a = true)
    (hclean : ∀ p ∈ suitePlans h validationsManifest, executesCleanly h fuel p = true) :
    (Action h fuel false validationsManifest).1.executed = suitePlans h validationsManifest ∧
    ((Action h fuel false validationsManifest).2 = .ErrManifestValidationsFailed ↔
      ∃ p ∈ suitePlans h validationsManifest, planPasses h fuel p = false) ∧
    ((Action h fuel false validationsManifest).2 = .success ↔
      ∀ p ∈ suitePlans h validationsManifest, planPasses h fuel p = true) ∧
    (Action h fuel false validationsManifest).1.passedPlans =
      ((suitePlans h validationsManifest).filter (planPasses h fuel)).map planIdentifier ∧
    (Action h fuel false validationsManifest).1.failedPlans =
      ((suitePlans h validationsManifest).filter (fun p => !planPasses h fuel p)).map
        planIdentifier := by
  rw [Action_eq h fuel false validationsManifest hrender,
    executePlans_full h fuel (suitePlans h validationsManifest) initSuite hclean]
  simp only [initSuite, Bool.true_and, List.nil_append]
  by_cases hall : (suitePlans h validationsManifest).all (planPasses h fuel) = true
  · have hall1 : ∀ p ∈ suitePlans h validationsManifest, planPasses h fuel p = true := by
      simpa using hall
    simp only [hall, Bool.true_eq_false, if_false]
    refine ⟨by first | rfl | trivial, ?_, ?_, by first | rfl | trivial,
      by first | rfl | trivial⟩
    · constructor
      · intro hc
        cases hc
      · rintro ⟨p, hp, hf⟩
        rw [hall1 p hp] at hf
        cases hf
    · exact ⟨fun _ => hall1, fun _ => by first | rfl | trivial⟩
  · have hf : (suitePlans h validationsManifest).all (planPasses h fuel) = false := by
      simpa using hall
    have hex : ∃ p ∈ suitePlans h validationsManifest, planPasses h fuel p = false := by
      simpa using hf
    simp only [hf, if_true]
    refine ⟨by first | rfl | trivial, ?_, ?_, by first | rfl | trivial,
      by first | rfl | trivial⟩
    · exact ⟨fun _ => hex, fun _ => by first | rfl | trivial⟩
    · constructor
      · intro hc
        cases hc
      · intro hc
        obtain ⟨p, hp, hpf⟩ := hex
        rw [hc p hp] at hpf
        cases hpf

/-- Witness of C11: of the three plans of one artifact only the second fails;
all three are executed, the second is in the failed list and the two others
are in the passed list. -/
theorem Action_full_run_witness :
    ((Action replicasHost 1 false threePlans).1.executed = suitePlans replicasHost threePlans ∧
     ((Action replicasHost 1 false threePlans).2 = .ErrManifestValidationsFailed ↔
       ∃ p ∈ suitePlans replicasHost threePlans, planPasses replicasHost 1 p = false) ∧
     ((Action replicasHost 1 false threePlans).2 = .success ↔
       ∀ p ∈ suitePlans replicasHost threePlans, planPasses replicasHost 1 p = true) ∧
     (Action replicasHost 1 false threePlans).1.passedPlans =
       ((suitePlans replicasHost threePlans).filter (planPasses replicasHost 1)).map
         planIdentifier ∧
     (Action replicasHost 1 false threePlans).1.failedPlans =
       ((suitePlans replicasHost threePlans).filter
         (fun p => !planPasses replicasHost 1 p)).map planIdentifier) ∧
    (Action replicasHost 1 false threePlans).1.executed.map planIdentifier =
      ["web/base", "web/dev", "web/prod"] ∧
    (Action replicasHost 1 false threePlans).1.passedPlans = ["web/base", "web/prod"] ∧
    (Action replicasHost 1 false threePlans).1.failedPlans = ["web/dev"] ∧
    (Action replicasHost 1 false threePlans).2 = .ErrManifestValidationsFailed :=
  ⟨Action_full_run replicasHost 1 threePlans (by decide) (by decide),
    by decide, by decide, by decide, by decide⟩

/-- C12: with fail-fast on and no execution error, the action executes the
plans up to the first one whose outcome is fail and none after it, and ends in
`ErrManifestValidationsFailed`; if no plan fails it executes every plan and
ends in success. -/
theorem Action_fail_fast (h : Host) (fuel : Nat) (validationsManifest : Manifest)
    (hrender : ∀ a ∈ sortArtifacts (validationsManifest.Artifacts.map Prod.snd),
      rendersCleanly h validationsManifest.Common a = true)
    (hclean : ∀ p ∈ suitePlans h validationsManifest, executesCleanly h fuel p = true) :
    (∀ pre p post, suitePlans h validationsManifest = pre ++ p :: post →
      (∀ p1 ∈ pre, planPasses h fuel p1 = true) → planPasses h fuel p = false →
      (Action h fuel true validationsManifest).1.executed = pre ++ [p] ∧
      (Action h fuel true validationsManifest).2 = .ErrManifestValidationsFailed) ∧
    ((∀ p ∈ suitePlans h validationsManifest, planPasses h fuel p = true) →
      (Action h fuel true validationsManifest).1.executed = suitePlans h validationsManifest ∧
      (Action h fuel true validationsManifest).2 = .success) := by
  constructor
  · intro pre p post hsplit hpass hfail
    have hmem : ∀ p1 ∈ pre ++ p :: post, executesCleanly h fuel p1 = true := by
      rw [← hsplit]
      exact hclean
    rw [Action_eq h fuel true validationsManifest hrender, hsplit,
      executePlans_failFast h fuel pre post p initSuite
        (fun p1 hp1 => hmem p1 (List.mem_append_left _ hp1))
        (hmem p (List.mem_append_right _ (List.mem_cons_self _ _))) hpass hfail]
    simp [initSuite]
  · intro hpass
    rw [Action_eq h fuel true validationsManifest hrender,
      executePlans_passing h fuel true _ initSuite hclean hpass]
    simp [initSuite]

/-- Witness of C12: of the three plans the second is the first to fail; with
fail-fast on the third is not executed. -/
theorem Action_fail_fast_witness :
    (Action replicasHost 1 true threePlans).1.executed.map planIdentifier =
      ["web/base", "web/dev"] ∧
    (Action replicasHost 1 true threePlans).2 = .ErrManifestValidationsFailed ∧
    (suitePlans replicasHost threePlans).map planIdentifier =
      ["web/base", "web/dev", "web/prod"] := by
  have hsplit : suitePlans replicasHost threePlans =
      (suitePlans replicasHost threePlans).take 1 ++
        ((suitePlans replicasHost threePlans).drop 1).head (by decide) ::
        (suitePlans replicasHost threePlans).drop 2 := by decide
  obtain ⟨h1, h2⟩ := (Action_fail_fast replicasHost 1 threePlans (by decide) (by decide)).1
    _ _ _ hsplit (by decide) (by decide)
  refine ⟨?_, h2, by decide⟩
  rw [h1]
  decide

theorem runPairs_calls_of_none (h : Host) (t : TestPlan) (ps : List (String × String))
    (s : Tally) (hnone : (runPairs h t ps s).2 = none) :
    (runPairs h t ps s).1.calls = s.calls ++ ps.map (invocation t) := by
  induction ps generalizing s with
  | nil => simp [runPairs]
  | cons p r ih =>
    simp only [runPairs] at hnone ⊢
    cases hy : h.Yq t.KustomizeBuildYAMLDocuments (documentIndex t p.1) p.2 with
    | error e =>
      rw [hy] at hnone
      cases hnone
    | ok out =>
      rw [hy] at hnone
      simp only at hnone ⊢
      rw [ih _ hnone, checkQuery_calls]
      simp [invocation]

/-- A plan that executes without an execution error has the evaluator invoked
for every one of its planned pairs, whatever their outcomes. -/
theorem callsOf_clean (h : Host) (fuel : Nat) (p : TestPlan)
    (hclean : executesCleanly h fuel p = true) :
    ∃ t1, mapKubernetesObjectsToKustomizeYAMLDocumentIndices h fuel p = .ok t1 ∧
      callsOf h fuel p = (plannedPairs t1).map (invocation t1) := by
  obtain ⟨o, ho, herr⟩ := executesCleanly_iff.mp hclean
  cases hidx : mapKubernetesObjectsToKustomizeYAMLDocumentIndices h fuel p with
  | error a =>
    unfold Execute at ho
    rw [hidx] at ho
    cases ho
  | ok t1 =>
    refine ⟨t1, rfl, ?_⟩
    have hcalls : callsOf h fuel p = o.tally.calls := by simp [callsOf, ho]
    rw [hcalls]
    rw [Execute_eq h fuel p t1 hidx] at ho
    rcases hrp : runPairs h t1 (plannedPairs t1) noTally with ⟨s, e⟩
    have hc := runPairs_calls_of_none h t1 (plannedPairs t1) noTally
    rw [hrp] at ho hc
    cases e with
    | some err =>
      simp only at ho
      cases ho
      cases herr
    | none =>
      simp only at ho hc
      have hs := hc trivial
      by_cases hlen : s.failures.length = 0
      · rw [if_pos hlen] at ho
        cases ho
        simpa [noTally] using hs
      · rw [if_neg hlen] at ho
        cases ho
        simpa [noTally] using hs

/-- C13, amended: with fail-fast on and no execution error, the plans up to
the first failing one are executed in full: every query of the failing plan
is evaluated, those after its first failing query included; no query of a
later plan is evaluated, and the action ends in
`ErrManifestValidationsFailed`. -/
theorem Action_fail_fast_queries (h : Host) (fuel : Nat) (validationsManifest : Manifest)
    (pre post : List TestPlan) (p : TestPlan)
    (hrender : ∀ a ∈ sortArtifacts (validationsManifest.Artifacts.map Prod.snd),
      rendersCleanly h validationsManifest.Common a = true)
    (hclean : ∀ p1 ∈ suitePlans h validationsManifest, executesCleanly h fuel p1 = true)
    (hsplit : suitePlans h validationsManifest = pre ++ p :: post)
    (hpass : ∀ p1 ∈ pre, planPasses h fuel p1 = true)
    (hfail : planPasses h fuel p = false) :
    (Action h fuel true validationsManifest).1.calls =
      pre.flatMap (callsOf h fuel) ++ callsOf h fuel p ∧
    (∃ t1, mapKubernetesObjectsToKustomizeYAMLDocumentIndices h fuel p = .ok t1 ∧
      callsOf h fuel p = (plannedPairs t1).map (invocation t1)) ∧
    (Action h fuel true validationsManifest).2 = .ErrManifestValidationsFailed := by
  have hmem : ∀ p1 ∈ pre ++ p :: post, executesCleanly h fuel p1 = true := by
    rw [← hsplit]
    exact hclean
  have hp := hmem p (List.mem_append_right _ (List.mem_cons_self _ _))
  refine ⟨?_, callsOf_clean h fuel p hp, ?_⟩
  · rw [Action_eq h fuel true validationsManifest hrender, hsplit,
      executePlans_failFast h fuel pre post p initSuite
        (fun p1 hp1 => hmem p1 (List.mem_append_left _ hp1)) hp hpass hfail]
    simp [initSuite]
  · rw [Action_eq h fuel true validationsManifest hrender, hsplit,
      executePlans_failFast h fuel pre post p initSuite
        (fun p1 hp1 => hmem p1 (List.mem_append_left _ hp1)) hp hpass hfail]

/-- Witness of C13: the only plan has three queries and the first fails; with
fail-fast on the evaluator is still invoked for all three. -/
theorem Action_fail_fast_queries_witness :
    (Action quietHost 1 true threeRules).1.calls =
      [(0, "first"), (0, "second"), (0, "third")] ∧
    (Action quietHost 1 true threeRules).2 = .ErrManifestValidationsFailed := by
  have hsplit : suitePlans quietHost threeRules =
      [] ++ (suitePlans quietHost threeRules).head (by decide) :: [] := by decide
  obtain ⟨h1, -, h3⟩ := Action_fail_fast_queries quietHost 1 threeRules _ _ _
    (by decide) (by decide) hsplit (by decide) (by decide)
  refine ⟨?_, h3⟩
  rw [h1]
  decide

/-- C13 as stated fails: the plan has three queries, the evaluator answers
`"null"` and the first query expects its field defined, so the first query
fails its expectation; with fail-fast on the evaluator is nevertheless
invoked for the second and the third query of the plan. -/
theorem Action_fail_fast_queries_counterexample :
    (∀ p ∈ suitePlans quietHost threeRules,
      (checkQuery quietHost p "Service" "first" "null" noTally).failures.length = 1 ∧
      GoMap.get p.KubernetesObjectToQuery "Service" = ["first", "second", "third"]) ∧
    (Action quietHost 1 true threeRules).1.calls =
      [(0, "first"), (0, "second"), (0, "third")] := by
  constructor <;> decide

/-! ## C14: an override of the validation kind -/

theorem GoMap.get_of_get? {α : Type} [Inhabited α] (m : GoMap α) (k : String) (v : α)
    (hget : GoMap.get? m k = some v) : GoMap.get m k = v := by
  simp [GoMap.get, hget]

/-- Indexing changes the document index and the object kinds of a plan, and
nothing else. -/
theorem indexer_eq (h : Host) (fuel : Nat) (t t1 : TestPlan)
    (hidx : mapKubernetesObjectsToKustomizeYAMLDocumentIndices h fuel t = .ok t1) :
    ∃ m, t1 = { t with
      KubernetesObjectToKustomizeYAMLDocumentIndex := m
      KubernetesObjects :=
        (collectKubernetesObjects (h.rangeOrder t.QueryToKubernetesObject)).1 } := by
  unfold mapKubernetesObjectsToKustomizeYAMLDocumentIndices at hidx
  cases hdoc : decodeDocuments (h.Decode t.KustomizeBuildYAMLDocuments) fuel 0 [] with
  | error e =>
    rw [hdoc] at hidx
    cases hidx
  | ok documents =>
    rw [hdoc] at hidx
    simp only at hidx
    cases hm : indexDocuments
        (collectKubernetesObjects (h.rangeOrder t.QueryToKubernetesObject)).1 documents 0
        t.KubernetesObjectToKustomizeYAMLDocumentIndex with
    | error e =>
      rw [hm] at hidx
      cases hidx
    | ok m =>
      rw [hm] at hidx
      cases hidx
      exact ⟨m, rfl⟩

theorem checkQuery_of_integer (h : Host) (t : TestPlan) (object query output : String)
    (s : Tally) (n : Int) (hv : t.holds query (.integer n)) :
    ∃ entry, checkQuery h t object query output s =
      if output = Itoa n then { s with passes := s.passes ++ [entry] }
      else { s with failures := s.failures ++ [entry] } := by
  obtain ⟨hk, hn⟩ := hv
  have hk1 := GoMap.get_of_get? _ _ _ hk
  have hn1 := GoMap.get_of_get? _ _ _ hn
  have hkinds : Integers ≠ Defined ∧ Integers ≠ Partials := by decide
  simp only [checkQuery, hk1, hn1, Value.kind, if_neg hkinds.1, if_neg hkinds.2, if_true]
  by_cases ho : output = Itoa n <;> simp [ho]

theorem checkQuery_of_defined_null (h : Host) (t : TestPlan) (object query : String)
    (s : Tally) (hv : t.holds query (.defined true)) :
    ∃ entry, checkQuery h t object query "null" s =
      { s with failures := s.failures ++ [entry] } := by
  obtain ⟨hk, hb⟩ := hv
  have hk1 := GoMap.get_of_get? _ _ _ hk
  have hb1 := GoMap.get_of_get? _ _ _ hb
  simp only [checkQuery, hk1, hb1, Value.kind, if_true]
  simp

theorem holds_of_indexer (h : Host) (fuel : Nat) (t t1 : TestPlan) (q : String) (v : Value)
    (hidx : mapKubernetesObjectsToKustomizeYAMLDocumentIndices h fuel t = .ok t1)
    (hv : t.holds q v) : t1.holds q v := by
  obtain ⟨m, rfl⟩ := indexer_eq h fuel t t1 hidx
  exact hv

theorem boolExpectation_foldl_keep (ds : List Declaration) (st : Resolver) (q : String)
    (hds : ∀ d ∈ ds, d.query = q → ∀ b, d.value ≠ Value.defined b) :
    GoMap.get? (ds.foldl write st).plan.QueryToBoolExpectation q =
      GoMap.get? st.plan.QueryToBoolExpectation q := by
  induction ds generalizing st with
  | nil => rfl
  | cons d r ih =>
    rw [List.foldl_cons, ih _ (fun d1 h1 => hds d1 (List.mem_cons_of_mem _ h1)),
      write_boolExpectation]
    have hd := hds d (List.mem_cons_self _ _)
    obtain ⟨o, q0, v⟩ := d
    cases v with
    | defined b =>
      by_cases hq : q0 = q
      · exact absurd rfl (hd hq b)
      · exact GoMap.get?_set_ne _ _ hq
    | integer n => rfl
    | string s => rfl
    | partials s => rfl

theorem eq_of_atMostOnce (ds : List Declaration) (d d1 : Declaration) (hd : d ∈ ds)
    (hd1 : d1 ∈ ds) (hq : d1.query = d.query) (h1 : atMostOnce ds d.query) : d1 = d := by
  obtain ⟨pre, post, hsplit, hpre, hpost⟩ := split_of_atMostOnce ds d hd h1
  rw [hsplit] at hd1
  rcases List.mem_append.mp hd1 with hm | hm
  · exact absurd hq (hpre d1 hm)
  · rcases List.mem_cons.mp hm with hm1 | hm1
    · exact hm1
    · exact absurd hq (hpost d1 hm1)

/-- C14: a query declared as a presence rule expecting `true` in the shared
rules and re-declared as an integer rule expecting `n` in an overlay is, when
the plan of the overlay is executed, checked as an integer rule only: it
passes iff the output is the decimal rendering of `n`, although the boolean
mapping still holds the presence expectation.  When the base plan is executed
it is checked as the presence rule, and the output `"null"` fails. -/
theorem override_supersedes (h : Host) (fuel : Nat) (a : Artifact) (overlay : String)
    (commonValidations : GoMap KubernetesObjectValidations) (q : String) (n : Int)
    (bytes bytes0 : Bytes)
    (hne : overlay ≠ "base")
    (hb : h.KustomizeBuild a.Name overlay = .ok bytes)
    (hb0 : h.KustomizeBuild a.Name "base" = .ok bytes0)
    (hc : atMostOnce (layerDeclarations commonValidations) q)
    (hcd : declares (layerDeclarations commonValidations) q (.defined true))
    (hbase : ¬ mentions (layerDeclarations a.Base) q)
    (ho : atMostOnce (overlayDeclarations a.Overlays overlay) q)
    (hod : declares (overlayDeclarations a.Overlays overlay) q (.integer n)) :
    ∃ plan plan0,
      CreateTestPlan h a overlay commonValidations = .ok plan ∧
      CreateTestPlan h a "base" commonValidations = .ok plan0 ∧
      GoMap.get? plan.QueryToBoolExpectation q = some true ∧
      (∀ t1, mapKubernetesObjectsToKustomizeYAMLDocumentIndices h fuel plan = .ok t1 →
        ∀ object output rest s,
          h.Yq t1.KustomizeBuildYAMLDocuments (documentIndex t1 object) q = .ok output →
          ∃ entry, executeQueries h t1 object (q :: rest) s =
            executeQueries h t1 object rest
              (if output = Itoa n then
                { passes := s.passes ++ [entry], failures := s.failures,
                  calls := s.calls ++ [(documentIndex t1 object, q)] }
              else
                { passes := s.passes, failures := s.failures ++ [entry],
                  calls := s.calls ++ [(documentIndex t1 object, q)] })) ∧
      (∀ t0, mapKubernetesObjectsToKustomizeYAMLDocumentIndices h fuel plan0 = .ok t0 →
        ∀ object rest s,
          h.Yq t0.KustomizeBuildYAMLDocuments (documentIndex t0 object) q = .ok "null" →
          ∃ entry, executeQueries h t0 object (q :: rest) s =
            executeQueries h t0 object rest
              { passes := s.passes, failures := s.failures ++ [entry],
                calls := s.calls ++ [(documentIndex t0 object, q)] }) := by
  refine ⟨_, _, CreateTestPlan_eq h a overlay commonValidations bytes hb,
    CreateTestPlan_eq h a "base" commonValidations bytes0 hb0, ?_, ?_, ?_⟩
  · obtain ⟨dc, hdc, hq, hval⟩ := hcd
    subst hq
    obtain ⟨p1, p2, hsplit, -, hp2⟩ := split_of_atMostOnce _ dc hdc hc
    obtain ⟨dov, hdov, hqo, hvo⟩ := hod
    have hrw : planDeclarations commonValidations a overlay =
        p1 ++ dc :: (p2 ++ layerDeclarations a.Base ++
          overlayDeclarations a.Overlays overlay) := by
      unfold planDeclarations
      rw [hsplit]
      simp [hne]
    rw [hrw, List.foldl_append, List.foldl_cons, boolExpectation_foldl_keep,
      write_boolExpectation, hval]
    · exact GoMap.get?_set_self _ _ _
    · intro d hd hdq b hdv
      rcases List.mem_append.mp hd with hm | hm
      · rcases List.mem_append.mp hm with hm1 | hm1
        · exact hp2 d hm1 hdq
        · exact hbase ⟨d, hm1, hdq⟩
      · have heq := eq_of_atMostOnce _ dov d hdov hm (by rw [hdq, hqo]) (by rw [hqo]; exact ho)
        rw [heq, hvo] at hdv
        cases hdv
  · intro t1 hidx object output rest s hy
    have key := holds_of_declares_last
      (layerDeclarations commonValidations ++ layerDeclarations a.Base)
      (overlayDeclarations a.Overlays overlay) [] q (.integer n)
      (initResolver a.Name overlay bytes) ho hod (by rintro ⟨d, hd, -⟩; cases hd)
    have hplan : ((planDeclarations commonValidations a overlay).foldl write
        (initResolver a.Name overlay bytes)).plan.holds q (.integer n) := by
      simpa [planDeclarations, hne] using key
    obtain ⟨entry, he⟩ := checkQuery_of_integer h t1 object q output
      { s with calls := s.calls ++ [(documentIndex t1 object, q)] } n
      (holds_of_indexer h fuel _ t1 q _ hidx hplan)
    refine ⟨entry, ?_⟩
    simp only [executeQueries, hy, he]
  · intro t0 hidx object rest s hy
    have key := holds_of_declares_last [] (layerDeclarations commonValidations)
      (layerDeclarations a.Base) q (.defined true) (initResolver a.Name "base" bytes0) hc hcd
      hbase
    have hplan : ((planDeclarations commonValidations a "base").foldl write
        (initResolver a.Name "base" bytes0)).plan.holds q (.defined true) := by
      simpa [planDeclarations] using key
    obtain ⟨entry, he⟩ := checkQuery_of_defined_null h t0 object q
      { s with calls := s.calls ++ [(documentIndex t0 object, q)] }
      (holds_of_indexer h fuel _ t0 q _ hidx hplan)
    refine ⟨entry, ?_⟩
    simp only [executeQueries, hy, he]

/-- Witness of C14: `n = 3`; the plan of overlay `prod`, whose evaluator
output is `"3"`, passes, and the base plan, whose output is `"null"`, fails. -/
theorem override_supersedes_witness :
    ∃ plan plan0,
      CreateTestPlan replicasHost webReplicas "prod" sharedReplicas = .ok plan ∧
      CreateTestPlan replicasHost webReplicas "base" sharedReplicas = .ok plan0 ∧
      GoMap.get? plan.QueryToBoolExpectation "select(.spec.replicas)" = some true ∧
      planPasses replicasHost 1 plan = true ∧
      planPasses replicasHost 1 plan0 = false := by
  obtain ⟨plan, plan0, h1, h2, h3, -, -⟩ :=
    override_supersedes replicasHost 1 webReplicas "prod" sharedReplicas
      "select(.spec.replicas)" 3 [1] [0] (by decide) rfl rfl (by decide) (by decide)
      (by decide) (by decide) (by decide)
  have hp := Except.ok.inj h1
  have hp0 := Except.ok.inj h2
  subst hp
  subst hp0
  exact ⟨_, _, rfl, rfl, h3, by decide, by decide⟩

/-! ## C15: the order of the failure messages -/

theorem lexLE_total (a b : List Char) : lexLE a b = true ∨ lexLE b a = true := by
  induction a generalizing b with
  | nil => exact Or.inl rfl
  | cons c s ih =>
    cases b with
    | nil => exact Or.inr rfl
    | cons d e =>
      simp only [lexLE]
      by_cases h1 : c.toNat < d.toNat
      · simp [h1]
      · by_cases h2 : d.toNat < c.toNat
        · simp [h2]
        · simp only [h1, h2, if_false]
          exact ih e

theorem lexLE_trans (a b c : List Char) (hab : lexLE a b = true) (hbc : lexLE b c = true) :
    lexLE a c = true := by
  induction a generalizing b c with
  | nil => rfl
  | cons x s ih =>
    cases b with
    | nil => simp [lexLE] at hab
    | cons y t =>
      cases c with
      | nil => simp [lexLE] at hbc
      | cons z u =>
        simp only [lexLE] at hab hbc ⊢
        by_cases h1 : x.toNat < y.toNat
        · by_cases h2 : y.toNat < z.toNat
          · have h3 : x.toNat < z.toNat := by omega
            simp [h3]
          · by_cases h4 : z.toNat < y.toNat
            · simp [h2, h4] at hbc
            · have h3 : x.toNat < z.toNat := by omega
              simp [h3]
        · by_cases h5 : y.toNat < x.toNat
          · simp [h1, h5] at hab
          · simp only [h1, h5, if_false] at hab
            by_cases h2 : y.toNat < z.toNat
            · have h3 : x.toNat < z.toNat := by omega
              simp [h3]
            · by_cases h4 : z.toNat < y.toNat
              · simp [h2, h4] at hbc
              · simp only [h2, h4, if_false] at hbc
                have h6 : ¬ x.toNat < z.toNat := by omega
                have h7 : ¬ z.toNat < x.toNat := by omega
                simp only [h6, h7, if_false]
                exact ih t u hab hbc

theorem char_eq_of_toNat (c d : Char) (h : c.toNat = d.toNat) : c = d := by
  apply Char.ext
  apply UInt32.ext
  exact h

theorem lexLE_antisymm (a b : List Char) (hab : lexLE a b = true) (hba : lexLE b a = true) :
    a = b := by
  induction a generalizing b with
  | nil =>
    cases b with
    | nil => rfl
    | cons d e => simp [lexLE] at hba
  | cons c s ih =>
    cases b with
    | nil => simp [lexLE] at hab
    | cons d e =>
      simp only [lexLE] at hab hba
      by_cases h1 : c.toNat < d.toNat
      · have h2 : ¬ d.toNat < c.toNat := by omega
        simp [h1, h2] at hba
      · by_cases h2 : d.toNat < c.toNat
        · simp [h1, h2] at hab
        · simp only [h1, h2, if_false] at hab hba
          have hcd : c = d := char_eq_of_toNat c d (by omega)
          rw [hcd, ih e hab hba]

theorem sortStrings_sorted (l : List String) :
    (sortStrings l).Pairwise (fun a b => lexLE a.data b.data = true) := by
  haveI : IsTotal String (fun a b => lexLE a.data b.data = true) :=
    ⟨fun a b => lexLE_total a.data b.data⟩
  haveI : IsTrans String (fun a b => lexLE a.data b.data = true) :=
    ⟨fun a b c => lexLE_trans a.data b.data c.data⟩
  exact List.sorted_insertionSort (fun a b : String => lexLE a.data b.data = true) l

theorem sortStrings_perm (l : List String) : (sortStrings l).Perm l :=
  List.perm_insertionSort (fun a b : String => lexLE a.data b.data = true) l

theorem sortStrings_eq_of_perm (l1 l2 : List String) (hp : l1.Perm l2) :
    sortStrings l1 = sortStrings l2 := by
  haveI : IsAntisymm String (fun a b => lexLE a.data b.data = true) :=
    ⟨fun a b hab hba => String.ext (lexLE_antisymm a.data b.data hab hba)⟩
  exact List.eq_of_perm_of_sorted
    (((sortStrings_perm l1).trans hp).trans (sortStrings_perm l2).symm)
    (sortStrings_sorted l1) (sortStrings_sorted l2)

/-- C15: when a plan is executed without invocation error and records at
least one failure, the failure messages `Execute` reports are in ascending
lexicographic order and are a permutation of the messages recorded during
evaluation; any order of recording the same messages gives the same
report. -/
theorem Execute_reports_sorted (h : Host) (fuel : Nat) (t t1 : TestPlan)
    (hidx : mapKubernetesObjectsToKustomizeYAMLDocumentIndices h fuel t = .ok t1)
    (hy : ∀ p ∈ plannedPairs t1, ∃ out,
      h.Yq t1.KustomizeBuildYAMLDocuments (documentIndex t1 p.1) p.2 = .ok out)
    (hfail : (runPairs h t1 (plannedPairs t1) noTally).1.failures ≠ []) :
    ∃ r, Execute h fuel t = .ok r ∧ r.pass = false ∧
      r.reported.Pairwise (fun a b => lexLE a.data b.data = true) ∧
      r.reported.Perm (runPairs h t1 (plannedPairs t1) noTally).1.failures ∧
      ∀ l : List String, l.Perm (runPairs h t1 (plannedPairs t1) noTally).1.failures →
        sortStrings l = r.reported := by
  rw [Execute_eq h fuel t t1 hidx]
  obtain ⟨h2, -, -⟩ := runPairs_ok h t1 (plannedPairs t1) noTally hy
  rcases hrp : runPairs h t1 (plannedPairs t1) noTally with ⟨s, e⟩
  rw [hrp] at h2 hfail
  simp only at h2 hfail
  subst h2
  have hlen : ¬ s.failures.length = 0 := fun hc => hfail (List.length_eq_zero.mp hc)
  have hsort : ¬ sortStrings s.failures = [] := fun hc => hfail ((sortStrings_eq_nil _).mp hc)
  simp only [if_neg hlen]
  refine ⟨_, rfl, ?_, sortStrings_sorted _, sortStrings_perm _, ?_⟩
  · simp [hsort]
  · intro l hl
    exact sortStrings_eq_of_perm l s.failures hl

/-- Witness of C15: the failure of query `b` is recorded before that of query
`a`; the report lists `a` first. -/
theorem Execute_reports_sorted_witness :
    ∃ r, Execute quietHost 1 unsortedPlan = .ok r ∧ r.pass = false ∧
      r.reported.Pairwise (fun a b => lexLE a.data b.data = true) ∧
      r.reported.Perm
        (runPairs quietHost (indexed unsortedPlan ["Service"])
          (plannedPairs (indexed unsortedPlan ["Service"])) noTally).1.failures ∧
      (runPairs quietHost (indexed unsortedPlan ["Service"])
          (plannedPairs (indexed unsortedPlan ["Service"])) noTally).1.failures =
        ["FAIL: Service b UNDEFINED\n", "FAIL: Service a UNDEFINED\n"] ∧
      r.reported = ["FAIL: Service a UNDEFINED\n", "FAIL: Service b UNDEFINED\n"] := by
  obtain ⟨r, h1, h2, h3, h4, h5⟩ :=
    Execute_reports_sorted quietHost 1 unsortedPlan (indexed unsortedPlan ["Service"]) rfl
      (fun _ _ => ⟨"null", rfl⟩) (by decide)
  refine ⟨r, h1, h2, h3, h4, by decide, ?_⟩
  rw [← h5 _ (List.Perm.refl _)]
  decide

/-! ## C16: a kind without an indexed document -/

/-- C16: when no invocation errors, `Execute` invokes the evaluator for every
query of an object kind of the plan that has no entry in the document index
(the index map may never have been allocated), and it does so with document
index 0. -/
theorem Execute_unindexed_kind (h : Host) (fuel : Nat) (t t1 : TestPlan) (k : String)
    (hidx : mapKubernetesObjectsToKustomizeYAMLDocumentIndices h fuel t = .ok t1)
    (hy : ∀ p ∈ plannedPairs t1, ∃ out,
      h.Yq t1.KustomizeBuildYAMLDocuments (documentIndex t1 p.1) p.2 = .ok out)
    (hk : k ∈ t1.KubernetesObjects)
    (hno : ∀ m, t1.KubernetesObjectToKustomizeYAMLDocumentIndex = some m →
      GoMap.get? m k = none) :
    ∃ r, Execute h fuel t = .ok r ∧
      r.tally.calls = (plannedPairs t1).map (invocation t1) ∧
      ∀ q ∈ GoMap.get t1.KubernetesObjectToQuery k,
        (k, q) ∈ plannedPairs t1 ∧ invocation t1 (k, q) = (0, q) ∧ (0, q) ∈ r.tally.calls := by
  have hzero : documentIndex t1 k = 0 := by
    unfold documentIndex
    cases hm : t1.KubernetesObjectToKustomizeYAMLDocumentIndex with
    | none => rfl
    | some m =>
      have := hno m hm
      simp [GoMap.get, this]
  have hpairs : ∀ q ∈ GoMap.get t1.KubernetesObjectToQuery k, (k, q) ∈ plannedPairs t1 := by
    intro q hq
    unfold plannedPairs
    rw [List.mem_flatMap]
    exact ⟨k, hk, List.mem_map.mpr ⟨q, hq, rfl⟩⟩
  rw [Execute_eq h fuel t t1 hidx]
  obtain ⟨h2, hcalls, -⟩ := runPairs_ok h t1 (plannedPairs t1) noTally hy
  rcases hrp : runPairs h t1 (plannedPairs t1) noTally with ⟨s, e⟩
  rw [hrp] at h2 hcalls
  simp only at h2 hcalls
  subst h2
  have hc : s.calls = (plannedPairs t1).map (invocation t1) := by
    simpa [noTally] using hcalls
  have hall : ∀ q ∈ GoMap.get t1.KubernetesObjectToQuery k,
      (k, q) ∈ plannedPairs t1 ∧ invocation t1 (k, q) = (0, q) ∧ (0, q) ∈ s.calls := by
    intro q hq
    have hinv : invocation t1 (k, q) = (0, q) := by simp [invocation, hzero]
    refine ⟨hpairs q hq, hinv, ?_⟩
    rw [hc, ← hinv]
    exact List.mem_map_of_mem _ (hpairs q hq)
  by_cases hlen : s.failures.length = 0
  · simp only [if_pos hlen]
    exact ⟨_, rfl, hc, hall⟩
  · simp only [if_neg hlen]
    exact ⟨_, rfl, hc, hall⟩

/-- Witness of C16: the rendered stream is empty, so the index map is never
allocated; the query of the Deployment is evaluated against document 0. -/
theorem Execute_unindexed_kind_witness :
    ∃ r, Execute quietHost 1 presencePlan = .ok r ∧
      r.plan.KubernetesObjectToKustomizeYAMLDocumentIndex = none ∧
      r.tally.calls = [(0, "select(.spec.replicas)")] := by
  obtain ⟨r, h1, h2, -⟩ :=
    Execute_unindexed_kind quietHost 1 presencePlan (indexed presencePlan ["Deployment"])
      "Deployment" rfl (fun _ _ => ⟨"null", rfl⟩) (by decide) (fun m hm => nomatch hm)
  have hr := Except.ok.inj h1
  subst hr
  exact ⟨_, rfl, rfl, h2⟩

/-! ## C17: every registered query has its expectation -/

/-- C17: in the plan `CreateTestPlan` returns, every query of every sequence
`KubernetesObjectToQuery[k]` has an entry in `QueryToValidationType` and an
entry in the expectation mapping of that validation kind, and the two are
those of the declaration visited last for the query string, under whichever
object kind that declaration stands. -/
theorem CreateTestPlan_registered_queries (h : Host) (a : Artifact) (overlay : String)
    (commonValidations : GoMap KubernetesObjectValidations) (bytes : Bytes)
    (hb : h.KustomizeBuild a.Name overlay = .ok bytes) :
    ∃ plan, CreateTestPlan h a overlay commonValidations = .ok plan ∧
      ∀ k q, q ∈ GoMap.get plan.KubernetesObjectToQuery k →
        ∃ pre d post, planDeclarations commonValidations a overlay = pre ++ d :: post ∧
          d.query = q ∧ (∀ d1 ∈ post, d1.query ≠ q) ∧ plan.holds q d.value := by
  refine ⟨_, CreateTestPlan_eq h a overlay commonValidations bytes hb, ?_⟩
  intro k q hq
  rw [(foldl_write_spec _ _ (initResolver_registered a.Name overlay bytes)).2 k q] at hq
  rcases hq with hc | ⟨d0, hd0, -, hq0⟩
  · exact absurd hc (List.not_mem_nil q)
  · obtain ⟨pre, d, post, hsplit, hdq, hpost⟩ :=
      split_last (planDeclarations commonValidations a overlay) q ⟨d0, hd0, hq0⟩
    refine ⟨pre, d, post, hsplit, hdq, hpost, ?_⟩
    rw [hsplit, ← hdq]
    apply holds_last
    intro d1 hd1
    rw [hdq]
    exact hpost d1 hd1

/-- Witness of C17: the replicas query registered for Deployments in the plan
of overlay `prod` has the presence kind and the expectation of the overlay. -/
theorem CreateTestPlan_registered_queries_witness :
    ∃ plan, CreateTestPlan quietHost webArtifact "prod" sharedReplicas = .ok plan ∧
      "select(.spec.replicas)" ∈ GoMap.get plan.KubernetesObjectToQuery "Deployment" ∧
      ∃ pre d post, planDeclarations sharedReplicas webArtifact "prod" = pre ++ d :: post ∧
        d.query = "select(.spec.replicas)" ∧
        (∀ d1 ∈ post, d1.query ≠ "select(.spec.replicas)") ∧
        plan.holds "select(.spec.replicas)" d.value := by
  obtain ⟨plan, hplan, hall⟩ :=
    CreateTestPlan_registered_queries quietHost webArtifact "prod" sharedReplicas [] rfl
  have hmem : "select(.spec.replicas)" ∈ GoMap.get plan.KubernetesObjectToQuery "Deployment" := by
    have hp := Except.ok.inj hplan
    subst hp
    decide
  exact ⟨plan, hplan, hmem, hall "Deployment" "select(.spec.replicas)" hmem⟩

/-! ## C7, C18, C19, C20: decode errors and the type assertion of the indexer -/

theorem decoded_append (l1 l2 : List DecodeResult) :
    decoded (l1 ++ l2) = decoded l1 ++ decoded l2 := by
  induction l1 with
  | nil => rfl
  | cons r rest ih =>
    cases r <;> simp [decoded, ih]

theorem mem_decoded (l : List DecodeResult) (d : Document) :
    d ∈ decoded l ↔ DecodeResult.document d ∈ l := by
  induction l with
  | nil => simp [decoded]
  | cons r rest ih =>
    cases r <;> simp [decoded, ih]

theorem decoded_length (l : List DecodeResult) (heof : DecodeResult.eof ∉ l) :
    (decoded l).length ≤ l.length ∧
    ((decoded l).length = l.length ↔ DecodeResult.failure ∉ l) := by
  induction l with
  | nil => simp [decoded]
  | cons r rest ih =>
    have hrest := ih (fun hc => heof (List.mem_cons_of_mem _ hc))
    cases r with
    | document d =>
      have hne : ¬ DecodeResult.failure = DecodeResult.document d := fun hc => nomatch hc
      simp only [decoded, List.length_cons, List.mem_cons, hne, false_or]
      constructor
      · omega
      · rw [← hrest.2]
        omega
    | eof => exact absurd (List.mem_cons_self _ _) heof
    | failure =>
      simp only [decoded, List.length_cons, List.mem_cons, true_or, not_true_eq_false,
        iff_false]
      omega

/-- The decode loop on a decoder that reaches end-of-stream: it returns the
documents decoded successfully, in order; the failed ones are skipped. -/
theorem decodeDocuments_results (decode : Nat → DecodeResult) (rs : List DecodeResult)
    (n : Nat) (acc : List Document) (fuel : Nat) (hfuel : rs.length < fuel)
    (heof : DecodeResult.eof ∉ rs)
    (hdec : ∀ i, decode (n + i) = (rs[i]?).getD .eof) :
    decodeDocuments decode fuel n acc = .ok (acc ++ decoded rs) := by
  induction rs generalizing n acc fuel with
  | nil =>
    cases fuel with
    | zero => omega
    | succ f =>
      have h0 := hdec 0
      simp only [Nat.add_zero, List.getElem?_nil, Option.getD_none] at h0
      simp [decodeDocuments, h0, decoded]
  | cons r rest ih =>
    cases fuel with
    | zero => simp at hfuel
    | succ f =>
      have h0 := hdec 0
      simp only [Nat.add_zero, List.getElem?_cons_zero, Option.getD_some] at h0
      have hnext : ∀ i, decode (n + 1 + i) = (rest[i]?).getD .eof := by
        intro i
        have hi := hdec (i + 1)
        simp only [List.getElem?_cons_succ] at hi
        rw [← hi]
        congr 1
        omega
      have hrest : DecodeResult.eof ∉ rest := fun hc => heof (List.mem_cons_of_mem _ hc)
      cases r with
      | document d =>
        simp only [decodeDocuments, h0]
        rw [ih (n + 1) (acc ++ [d]) f (by simpa using hfuel) hrest hnext]
        simp [decoded]
      | eof => exact absurd (List.mem_cons_self _ _) heof
      | failure =>
        simp only [decodeDocuments, h0]
        rw [ih (n + 1) acc f (by simpa using hfuel) hrest hnext]
        simp [decoded]

/-- The decode loop on a decoder that reports a non-EOF error at every call
from some call on: no amount of fuel brings it to its end. -/
theorem decodeDocuments_stuck (decode : Nat → DecodeResult) (n0 : Nat)
    (hstuck : ∀ n, n0 ≤ n → decode n = .failure) (fuel n : Nat) (acc : List Document)
    (hn : n0 ≤ n) : decodeDocuments decode fuel n acc = .error .outOfFuel := by
  induction fuel generalizing n acc with
  | zero => rfl
  | succ f ih =>
    simp only [decodeDocuments, hstuck n hn]
    exact ih (n + 1) acc (by omega)

/-- C18 fails on the code: the decoder reports a ConfigMap and then, at every
later call, an error that is not end-of-stream.  The decode loop drops the
error and calls `Decode` again, so for no amount of fuel does the indexer, or
`Execute`, return: the scan does not terminate. -/
theorem decode_loop_does_not_end :
    ∀ fuel, mapKubernetesObjectsToKustomizeYAMLDocumentIndices stuckHost fuel configMapPlan =
        .error .outOfFuel ∧
      Execute stuckHost fuel configMapPlan = .error .outOfFuel := by
  intro fuel
  have hidx : mapKubernetesObjectsToKustomizeYAMLDocumentIndices stuckHost fuel configMapPlan =
      .error .outOfFuel := by
    unfold mapKubernetesObjectsToKustomizeYAMLDocumentIndices
    cases fuel with
    | zero => rfl
    | succ f =>
      have hstep : decodeDocuments (stuckHost.Decode configMapPlan.KustomizeBuildYAMLDocuments)
          (f + 1) 0 [] =
          decodeDocuments (stuckHost.Decode configMapPlan.KustomizeBuildYAMLDocuments) f 1
            [.stringMap (.str "ConfigMap")] := rfl
      rw [hstep, decodeDocuments_stuck _ 1 (fun n hn => by
        have hne : ¬ n = 0 := by omega
        simp [stuckHost, hne]) f 1 _ (Nat.le_refl 1)]
  refine ⟨hidx, ?_⟩
  unfold Execute
  rw [hidx]

/-- Where the decoder reaches end-of-stream and every decoded document passes
the type assertion of the indexer (each is a mapping with a key that is not a
string), the index recorded for a plan kind `k` whose last decoded document is
the result of call `j` is the number of documents decoded successfully before
it; that number is `j`, the position of the document in the stream, iff no
earlier document failed to decode, and is smaller than `j` otherwise. -/
theorem index_counts_of_general_maps (h : Host) (fuel : Nat) (t : TestPlan)
    (rs : List DecodeResult) (k : String) (j : Nat)
    (hrep : reportsResults h t.KustomizeBuildYAMLDocuments rs)
    (heof : DecodeResult.eof ∉ rs)
    (hmap : ∀ d ∈ decoded rs, ∃ kind, d = Document.generalMap kind)
    (hfuel : rs.length < fuel)
    (hk : k ∈ (collectKubernetesObjects (h.rangeOrder t.QueryToKubernetesObject)).1)
    (hj : rs[j]? = some (.document (.generalMap (.str k))))
    (hlast : ∀ i, j < i → rs[i]? ≠ some (.document (.generalMap (.str k)))) :
    ∃ t1 m, mapKubernetesObjectsToKustomizeYAMLDocumentIndices h fuel t = .ok t1 ∧
      t1.KubernetesObjectToKustomizeYAMLDocumentIndex = some m ∧
      GoMap.get? m k = some (decoded (rs.take j)).length ∧
      documentIndex t1 k = (decoded (rs.take j)).length ∧
      ((decoded (rs.take j)).length = j ↔ DecodeResult.failure ∉ rs.take j) ∧
      (DecodeResult.failure ∈ rs.take j → (decoded (rs.take j)).length < j) := by
  obtain ⟨pre, post, hsplit, hlen⟩ := split_at_index rs j _ hj
  have htake : rs.take j = pre := by
    rw [hsplit, ← hlen]
    simp
  have hdecoded : decoded rs = decoded pre ++ Document.generalMap (Dyn.str k) :: decoded post := by
    rw [hsplit, decoded_append]
    rfl
  have hpost : ∀ d ∈ decoded post, d ≠ Document.generalMap (Dyn.str k) := by
    intro d hd hc
    rw [mem_decoded] at hd
    obtain ⟨i, hi⟩ := List.mem_iff_getElem?.mp hd
    apply hlast (j + 1 + i) (by omega)
    rw [hsplit, List.getElem?_append_right (by omega)]
    rw [show j + 1 + i - pre.length = i + 1 by omega, List.getElem?_cons_succ, hi, hc]
  have hdocs := decodeDocuments_results (h.Decode t.KustomizeBuildYAMLDocuments) rs 0 [] fuel
    hfuel heof (by intro n; rw [Nat.zero_add]; exact hrep n)
  obtain ⟨m1, hm1, hget⟩ := indexDocuments_last
    (collectKubernetesObjects (h.rangeOrder t.QueryToKubernetesObject)).1
    (decoded pre) (decoded post) 0 t.KubernetesObjectToKustomizeYAMLDocumentIndex k hk
    (fun d hd => hmap d (by rw [hdecoded]; exact List.mem_append_left _ hd))
    (fun d hd => hmap d (by
      rw [hdecoded]
      exact List.mem_append_right _ (List.mem_cons_of_mem _ hd)))
    hpost
  rw [Nat.zero_add] at hget
  have hpre_eof : DecodeResult.eof ∉ pre := by
    intro hc
    apply heof
    rw [hsplit]
    exact List.mem_append_left _ hc
  have hcount := decoded_length pre hpre_eof
  rw [htake]
  cases m1 with
  | none => simp [GoMap.get?] at hget
  | some m =>
    simp only [Option.getD_some] at hget
    refine ⟨{ t with
        KubernetesObjectToKustomizeYAMLDocumentIndex := some m
        KubernetesObjects :=
          (collectKubernetesObjects (h.rangeOrder t.QueryToKubernetesObject)).1 },
      m, ?_, rfl, hget, ?_, ?_, ?_⟩
    · unfold mapKubernetesObjectsToKustomizeYAMLDocumentIndices
      rw [hdocs]
      simp only [List.nil_append]
      rw [hdecoded, hm1]
    · simp [documentIndex, GoMap.get, hget]
    · rw [← hlen]
      exact hcount.2
    · intro hf
      have hne : ¬ (decoded pre).length = pre.length := fun hc => (hcount.2.mp hc) hf
      have hle := hcount.1
      omega

/-- The first document of the stream fails to decode and the second is a
ConfigMap given a key that is not a string: the index recorded for ConfigMap
is 0 although the document stands at position 1 of the stream. -/
theorem index_counts_of_general_maps_example :
    ∃ t1 m, mapKubernetesObjectsToKustomizeYAMLDocumentIndices
        (resultsHost failureThenKeyedConfigMap) 3 configMapPlan = .ok t1 ∧
      t1.KubernetesObjectToKustomizeYAMLDocumentIndex = some m ∧
      GoMap.get? m "ConfigMap" = some 0 ∧ documentIndex t1 "ConfigMap" = 0 ∧
      failureThenKeyedConfigMap[1]? =
        some (.document (.generalMap (.str "ConfigMap"))) := by
  obtain ⟨t1, m, h1, h2, h3, h4, -, -⟩ :=
    index_counts_of_general_maps (resultsHost failureThenKeyedConfigMap) 3 configMapPlan
      failureThenKeyedConfigMap "ConfigMap" 1 (fun _ => rfl) (by decide)
      (by
        intro d hd
        simp only [failureThenKeyedConfigMap, decoded, List.mem_singleton] at hd
        exact ⟨_, hd⟩)
      (by decide) (by decide) (by decide)
      (by
        intro i hi
        have hnone : failureThenKeyedConfigMap[i]? = none :=
          List.getElem?_eq_none (by
            simp only [failureThenKeyedConfigMap, List.length_cons, List.length_nil]
            omega)
        rw [hnone]
        exact fun hc => nomatch hc)
  exact ⟨t1, m, h1, h2, h3, h4, by decide⟩

/-- A decoded document that does not pass the type assertion makes the loop
over the documents panic, wherever it stands. -/
theorem indexDocuments_panics (objects : List String) (docs : List Document) (index : Nat)
    (m : Option (GoMap Nat)) (hmem : ∃ d ∈ docs, ∀ kind, d ≠ Document.generalMap kind) :
    indexDocuments objects docs index m = .error .panic := by
  induction docs generalizing index m with
  | nil =>
    obtain ⟨d, hd, -⟩ := hmem
    cases hd
  | cons d r ih =>
    cases d with
    | stringMap kind => rfl
    | nonMapping => rfl
    | generalMap kind =>
      simp only [indexDocuments, indexDocument]
      apply ih
      obtain ⟨d1, hd1, hne⟩ := hmem
      rcases List.mem_cons.mp hd1 with hc | hc
      · exact absurd hc (hne kind)
      · exact ⟨d1, hc, hne⟩

/-- On a decoder that reaches end-of-stream, a decoded document that does not
pass the type assertion makes the indexer panic. -/
theorem indexer_panics_of_results (h : Host) (fuel : Nat) (t : TestPlan)
    (rs : List DecodeResult)
    (hrep : reportsResults h t.KustomizeBuildYAMLDocuments rs)
    (heof : DecodeResult.eof ∉ rs) (hfuel : rs.length < fuel)
    (hmem : ∃ d ∈ decoded rs, ∀ kind, d ≠ Document.generalMap kind) :
    mapKubernetesObjectsToKustomizeYAMLDocumentIndices h fuel t = .error .panic := by
  have hdocs := decodeDocuments_results (h.Decode t.KustomizeBuildYAMLDocuments) rs 0 [] fuel
    hfuel heof (by intro n; rw [Nat.zero_add]; exact hrep n)
  unfold mapKubernetesObjectsToKustomizeYAMLDocumentIndices
  rw [hdocs]
  simp only [List.nil_append]
  rw [indexDocuments_panics _ _ _ _ hmem]

/-- An ordinary Kubernetes object anywhere in a stream that decodes makes the
indexer panic: the object is a mapping with string keys and does not pass the
type assertion. -/
theorem indexer_panics_on_object (h : Host) (fuel : Nat) (t : TestPlan) (docs : List Document)
    (kind : Dyn)
    (hdec : decodesTo h t.KustomizeBuildYAMLDocuments docs) (hfuel : docs.length < fuel)
    (hmem : Document.stringMap kind ∈ docs) :
    mapKubernetesObjectsToKustomizeYAMLDocumentIndices h fuel t = .error .panic := by
  have hdocs := decodeDocuments_stream (h.Decode t.KustomizeBuildYAMLDocuments) docs 0 []
    fuel hfuel (by intro n; rw [Nat.zero_add]; exact hdec n)
  unfold mapKubernetesObjectsToKustomizeYAMLDocumentIndices
  rw [hdocs]
  simp only [List.nil_append]
  rw [indexDocuments_panics _ _ _ _ ⟨_, hmem, fun _ hc => nomatch hc⟩]

theorem indexDocuments_nonMapping (objects : List String) (docs : List Document) (index : Nat)
    (m : Option (GoMap Nat)) (hmem : Document.nonMapping ∈ docs) :
    indexDocuments objects docs index m = .error .panic :=
  indexDocuments_panics objects docs index m ⟨_, hmem, fun _ hc => nomatch hc⟩

/-- A decoded document that is not a mapping at all makes the indexer panic, wherever
it stands in the stream. -/
theorem indexer_panics (h : Host) (fuel : Nat) (t : TestPlan) (docs : List Document)
    (hdec : decodesTo h t.KustomizeBuildYAMLDocuments docs) (hfuel : docs.length < fuel)
    (hmem : Document.nonMapping ∈ docs) :
    mapKubernetesObjectsToKustomizeYAMLDocumentIndices h fuel t = .error .panic := by
  have hdocs := decodeDocuments_stream (h.Decode t.KustomizeBuildYAMLDocuments) docs 0 []
    fuel hfuel (by intro n; rw [Nat.zero_add]; exact hdec n)
  unfold mapKubernetesObjectsToKustomizeYAMLDocumentIndices
  rw [hdocs]
  simp only [List.nil_append]
  rw [indexDocuments_nonMapping _ _ _ _ hmem]

/-- C20 fails on the code: the stream decodes to a ConfigMap followed by a
scalar.  The type assertion on the scalar document panics: the indexer, and
with it `Execute`, ends in a runtime fault instead of completing with the
ConfigMap indexed. -/
theorem index_scalar_document_panics :
    mapKubernetesObjectsToKustomizeYAMLDocumentIndices (streamHost configMapThenScalar) 3
        configMapPlan = .error .panic ∧
    Execute (streamHost configMapThenScalar) 3 configMapPlan = .error .panic := by
  have hidx := indexer_panics (streamHost configMapThenScalar) 3 configMapPlan
    configMapThenScalar (fun _ => rfl) (by decide) (by decide)
  refine ⟨hidx, ?_⟩
  unfold Execute
  rw [hidx]

/-- C7 fails on the code: the stream of the claim, four ordinary objects with
a ConfigMap at indices 1 and 3, decodes to four mappings with string keys.
The type assertion of the indexer panics on the first of them: the indexer,
and with it `Execute`, ends in a runtime fault and no index is recorded for
ConfigMap, where the claim has `kindToDocumentIndex["ConfigMap"] = 3`. -/
theorem index_last_match_panics :
    twoConfigMaps[1]? = some (.stringMap (.str "ConfigMap")) ∧
    twoConfigMaps[3]? = some (.stringMap (.str "ConfigMap")) ∧
    mapKubernetesObjectsToKustomizeYAMLDocumentIndices (streamHost twoConfigMaps) 5
        configMapPlan = .error .panic ∧
    Execute (streamHost twoConfigMaps) 5 configMapPlan = .error .panic := by
  have hidx := indexer_panics_on_object (streamHost twoConfigMaps) 5 configMapPlan
    twoConfigMaps (.str "ConfigMap") (fun _ => rfl) (by decide) (by decide)
  refine ⟨by decide, by decide, hidx, ?_⟩
  unfold Execute
  rw [hidx]

/-- C19 fails on the code: the first document of the stream fails to decode
and the second is an ordinary ConfigMap, a mapping with string keys.  The
decode loop skips the failed document, and the type assertion of the indexer
panics on the ConfigMap: the indexer, and with it `Execute`, ends in a runtime
fault, where the claim has the index 0 recorded for ConfigMap. -/
theorem index_after_failure_panics :
    decoded failureThenConfigMap = [.stringMap (.str "ConfigMap")] ∧
    mapKubernetesObjectsToKustomizeYAMLDocumentIndices (resultsHost failureThenConfigMap) 3
        configMapPlan = .error .panic ∧
    Execute (resultsHost failureThenConfigMap) 3 configMapPlan = .error .panic := by
  have hidx := indexer_panics_of_results (resultsHost failureThenConfigMap) 3 configMapPlan
    failureThenConfigMap (fun _ => rfl) (by decide) (by decide)
    ⟨.stringMap (.str "ConfigMap"), by decide, fun _ hc => nomatch hc⟩
  refine ⟨by decide, hidx, ?_⟩
  unfold Execute
  rw [hidx]

end Kmval
